import Mathlib

/-!
Shallow embedding of the hexcrypt sources (arcfour.c and the two revisions
of ihex.h: the ordered-vector `HexRecord` variant and the address-keyed
`std::map` variant), together with theorems settling the frozen claims.

Machine bytes are modelled as `Nat` with explicit `% 256` (resp. `% 65536`,
`% 4294967296`) wherever the C code truncates.  Bit expressions whose
operands occupy disjoint bit ranges in the C code (such as
`(data[1] << 8) | data[2]` on `uint8_t` operands) are written with `*` and
`+`, which coincide with the C values on the byte ranges the program
guarantees; genuinely overlapping bitwise operations keep `|||`/`^^^`.
-/

/-! ## arcfour.c -/

/-- One RC4 swap `t = s[a]; s[a] = s[b]; s[b] = t` on the 256-entry state. -/
def rc4swap (s : List Nat) (a b : Nat) : List Nat :=
  (s.set a (s.getD b 0)).set b (s.getD a 0)

/-- `arcfour_key_setup`: the standard RC4 key schedule over a 256-entry
identity permutation. -/
def arcfour_key_setup (key : List Nat) : List Nat :=
  ((List.range 256).foldl
    (fun sj i =>
      let j := (sj.2 + sj.1.getD i 0 + key.getD (i % key.length) 0) % 256
      (rc4swap sj.1 i j, j))
    (List.range 256, 0)).1

/-- The loop body of `arcfour_generate_stream`: starting from permutation
state `s` and the loop counters `i`, `j`, produce `n` keystream bytes and
the final permutation state.  The counters are local to one call of the C
function, which is why they are arguments here and are reset by
`arcfour_generate_stream` itself. -/
def rc4streamAux : List Nat → Nat → Nat → Nat → List Nat × List Nat
  | s, _, _, 0 => (s, [])
  | s, i, j, n + 1 =>
    let i' := (i + 1) % 256
    let j' := (j + s.getD i' 0) % 256
    let s' := rc4swap s i' j'
    let b := s'.getD ((s'.getD i' 0 + s'.getD j' 0) % 256) 0
    let r := rc4streamAux s' i' j' n
    (r.1, b :: r.2)

/-- `arcfour_generate_stream`: emits `len` bytes.  Returns the mutated
state array together with the output bytes.  Note that the C code declares
`i` and `j` as locals initialised to 0 on every call. -/
def arcfour_generate_stream (s : List Nat) (len : Nat) : List Nat × List Nat :=
  rc4streamAux s 0 0 len

/-! ## Record model (ihex.h, ordered-vector revision) -/

/-- One parsed hex record: `HexRecord` of ihex.h.  `size` is the declared
payload length, `address` the 16-bit offset, `type` the record tag, `data`
the payload bytes and `checksum` the stored checksum byte. -/
structure HexRecord where
  size : Nat
  address : Nat
  type : Nat
  data : List Nat
  checksum : Nat
deriving Repr, DecidableEq

/-- The checksum value computed by `HexRecord::UpdateChecksum`: the two's
complement (mod 256) of the sum of size, address high byte, address low
byte, type and the payload bytes. -/
def csumOf (size address ty : Nat) (data : List Nat) : Nat :=
  (256 - (size + address % 65536 / 256 + address % 256 + ty
      + data.foldl (· + ·) 0) % 256) % 256

/-- `HexRecord::UpdateChecksum`: recompute the checksum from the current
field values. -/
def HexRecord.updateChecksum (r : HexRecord) : HexRecord :=
  { r with checksum := csumOf r.size r.address r.type r.data }

/-- The `HexRecord(uint8_t* data)` constructor: split the raw record bytes
`[count, addrHi, addrLo, type, payload…, checksum]` into fields. -/
def HexRecord.ofBytes (bs : List Nat) : HexRecord :=
  { size := bs.getD 0 0
    address := bs.getD 1 0 * 256 + bs.getD 2 0
    type := bs.getD 3 0
    data := (bs.drop 4).take (bs.getD 0 0)
    checksum := bs.getD (bs.getD 0 0 + 4) 0 }

/-! ## Line-level parsing (`IntelHex::Parse`, shared between both
revisions up to the record dispatch) -/

/-- The distinct diagnostic messages passed to the `ParseError`
constructor by `IntelHex::Parse`. -/
inductive ParseMsg where
  | badStart          -- "not starting with ':' or too short"
  | notHexChar        -- "not an hexadecimal character"
  | checksumError     -- "checksum error"
  | mismatchedLength  -- "mismatched length"
  | eofHasData        -- "end-of-file record has data"
  | wrongSizeExtAddr  -- "wrong size for extended address record"
  | unhandledType     -- "unhandled record type"
deriving Repr, DecidableEq

/-- A `ParseError` value: the line number, column and message given to the
exception constructor. -/
structure ParseErr where
  line : Nat
  col : Nat
  msg : ParseMsg
deriving Repr, DecidableEq

/-- Value of one hex digit character, mirroring the nibble conversion
chain in `IntelHex::Parse` (digits, then lowercase, then uppercase). -/
def hexVal (c : Nat) : Option Nat :=
  if 48 ≤ c ∧ c ≤ 57 then some (c - 48)
  else if 97 ≤ c ∧ c ≤ 102 then some (c - 87)
  else if 65 ≤ c ∧ c ≤ 70 then some (c - 55)
  else none

deriving instance DecidableEq for Except

/-- Case analysis on an `Except` value, used to keep the control flow of
the C code (early `throw` versus continue) rewritable in proofs. -/
def caseExcept {ε α β : Type} (x : Except ε α) (f : ε → β) (g : α → β) : β :=
  match x with
  | .error e => f e
  | .ok a => g a

/-- The hex-decoding loop of `IntelHex::Parse` over the characters after
the `':'`: pairs of nibbles become bytes; a lone trailing nibble is left
incomplete (the loop ends before `++byte`); a `'\r'` as the very last
character stops the loop.  `i` is the current column, `pending` the first
nibble of an unfinished byte.  Errors carry the offending column. -/
def decodeHexChars : List Nat → Nat → Option Nat → Except (Nat × ParseMsg) (List Nat)
  | [], _, _ => .ok []
  | c :: rest, i, pending =>
    match hexVal c with
    | some v =>
      match pending with
      | none => decodeHexChars rest (i + 1) (some v)
      | some hi =>
        match decodeHexChars rest (i + 1) none with
        | .ok bs => .ok ((hi * 16 + v) :: bs)
        | .error e => .error e
    | none =>
      if c = 13 ∧ rest = [] then .ok []
      else .error (i, .notHexChar)

/-- Everything `IntelHex::Parse` does to a single line before the
record-type dispatch: start-marker and length check, hex decoding,
checksum verification, declared-length verification, and the split of the
raw bytes into record fields.  `l` is the 1-based line number. -/
def parseLineCore (line : List Nat) (l : Nat) : Except ParseErr HexRecord :=
  if line.length < 10 ∨ line.getD 0 0 ≠ 58 then
    .error ⟨l, 0, .badStart⟩
  else
    caseExcept (decodeHexChars (line.drop 1) 1 none)
      (fun e => .error ⟨l, e.1, e.2⟩)
      (fun bs =>
        if (bs.foldl (· + ·) 0) % 256 ≠ 0 then
          .error ⟨l, line.length - 2, .checksumError⟩
        else if bs.getD 0 0 + 5 ≠ bs.length then
          .error ⟨l, 2, .mismatchedLength⟩
        else
          .ok (HexRecord.ofBytes bs))

/-! ## Splitting a file into `getline` results

`IntelHex::Parse` reads lines with `input.getline(line, 1026)` and uses
`gcount() - 1` characters.  For a line terminated by `'\n'` that is
exactly the content before the `'\n'`; for a final unterminated chunk the
`- 1` drops the last character; an empty final chunk means the next
`getline` fails (`failbit`), surfacing as an I/O failure, as does any line
whose content reaches the 1025-character buffer capacity. -/

/-- Split a byte list into the segments between `'\n'` (10) characters;
the final segment (after the last newline, possibly the whole input) is
always present, possibly empty. -/
def splitSegsAux : List Nat → List Nat → List (List Nat)
  | [], acc => [acc.reverse]
  | c :: rest, acc =>
    if c = 10 then acc.reverse :: splitSegsAux rest []
    else splitSegsAux rest (c :: acc)

/-- All segments of a file. -/
def splitSegs (f : List Nat) : List (List Nat) := splitSegsAux f []

/-- Line contents from the segment list: every segment before the last is
one `getline` result; a nonempty trailing segment loses its final
character to the `gcount() - 1` convention; an empty trailing segment
yields no line at all (the next `getline` call fails). -/
def linesOfSegs : List (List Nat) → List (List Nat)
  | [] => []
  | [last] => if last = [] then [] else [last.dropLast]
  | seg :: rest => seg :: linesOfSegs rest

/-- The sequence of line contents successive `getline` calls deliver on
`f`, before an I/O failure ends the stream. -/
def fileLines (f : List Nat) : List (List Nat) := linesOfSegs (splitSegs f)

/-! ## Ordered-vector revision of `IntelHex` (src/ihex.h) -/

namespace IHexVec

/-- Outcome of `IntelHex::Parse` in the vector revision: the populated
`fData`, a `ParseError`, or an `ios_base::failure`. -/
inductive Result where
  | ok (recs : List HexRecord)
  | err (e : ParseErr)
  | ioError
deriving Repr, DecidableEq

/-- The parse loop of the vector revision: every successfully decoded
record is pushed onto `fData` (no type dispatch); a record of type 1 ends
parsing.  Running out of lines, or a line reaching the getline buffer
capacity, is an I/O failure. -/
def parseLines : List (List Nat) → Nat → List HexRecord → Result
  | [], _, _ => .ioError
  | line :: rest, l, acc =>
    if 1025 ≤ line.length then .ioError
    else
      caseExcept (parseLineCore line l) (fun e => .err e)
        (fun r =>
          if r.type = 1 then .ok (acc ++ [r])
          else parseLines rest (l + 1) (acc ++ [r]))

/-- `IntelHex::Parse` (vector revision) on a whole file. -/
def Parse (f : List Nat) : Result := parseLines (fileLines f) 1 []

/-- Two uppercase hex digit characters of one byte, as emitted by
`HexRecord::Generate` / `IntelHex::WriteRecord`. -/
def hexDigitChar (n : Nat) : Nat := if n < 10 then n + 48 else n + 55

/-- The two characters of a byte: high nibble then low nibble. -/
def byteHexChars (b : Nat) : List Nat := [hexDigitChar (b % 256 / 16), hexDigitChar (b % 16)]

/-- Hex-encode a byte list. -/
def hexChars (bs : List Nat) : List Nat := (bs.map byteHexChars).flatten

/-- The raw bytes `HexRecord::Generate` places in its buffer:
`[size, addrHi, addrLo, type, payload…, storedChecksum]` (each truncated
to `uint8_t`). -/
def recordRawBytes (r : HexRecord) : List Nat :=
  r.size % 256 :: r.address % 65536 / 256 :: r.address % 256 :: r.type % 256 ::
    (r.data.map (· % 256) ++ [r.checksum % 256])

/-- The characters of one serialized line before the final `'\n'`:
`':'`, hex pairs, `'\r'`.  This is exactly what a later `getline` hands
back for the line. -/
def recordLineContent (r : HexRecord) : List Nat :=
  58 :: hexChars (recordRawBytes r) ++ [13]

/-- `HexRecord::Generate`: one serialized line, `':'`, hex pairs, CRLF. -/
def recordGenerate (r : HexRecord) : List Nat :=
  recordLineContent r ++ [10]

/-- `IntelHex::Generate` (vector revision): serialize every stored record
verbatim. -/
def Generate (recs : List HexRecord) : List Nat :=
  (recs.map recordGenerate).flatten

/-- The per-record loop of `IntelHex::Cipher` (vector revision): for every
record — with no type filtering — draw `data.size()` keystream bytes, XOR
them into the payload, and recompute the checksum. -/
def cipherGo : List Nat → List HexRecord → List HexRecord
  | _, [] => []
  | s, r :: rest =>
    let sr := arcfour_generate_stream s r.data.length
    let r' := HexRecord.updateChecksum
      { r with data := List.zipWith (fun a b => a ^^^ b) r.data sr.2 }
    r' :: cipherGo sr.1 rest

/-- `IntelHex::Cipher` (vector revision): key setup, discard 256 keystream
bytes, then walk the records. -/
def Cipher (key : List Nat) (recs : List HexRecord) : List HexRecord :=
  cipherGo (arcfour_generate_stream (arcfour_key_setup key) 256).1 recs

/-- `HexRecord::operator==`: compares size, address, type and checksum —
and nothing else (the payload bytes are not compared). -/
def recordEq (a b : HexRecord) : Bool :=
  a.size == b.size && a.address == b.address && a.type == b.type && a.checksum == b.checksum

/-- `IntelHex::operator==` (vector revision): `std::vector` equality built
on `HexRecord::operator==`. -/
def imageEq (a b : List HexRecord) : Bool :=
  a.length == b.length && (List.zipWith recordEq a b).all id

end IHexVec

/-! ## Address-keyed (map) revision of `IntelHex` (src/unnamed/part_001) -/

namespace IHexMap

/-- The `std::map<uint32_t, std::vector<uint8_t>>` image, modelled as an
association list kept strictly sorted by key (the map's iteration
order). -/
abbrev Image := List (Nat × List Nat)

/-- `std::map::insert`: inserts at the sorted position, and does nothing
when the key is already present (no overwrite). -/
def mapInsert : Image → Nat → List Nat → Image
  | [], k, v => [(k, v)]
  | (k', v') :: rest, k, v =>
    if k < k' then (k, v) :: (k', v') :: rest
    else if k = k' then (k', v') :: rest
    else (k', v') :: mapInsert rest k v

/-- `std::map` lookup on the sorted association list: the payload stored
at absolute address `k`, if any. -/
def lookup : Image → Nat → Option (List Nat)
  | [], _ => none
  | (k', v') :: rest, k => if k = k' then some v' else lookup rest k

/-- Outcome of `IntelHex::Parse` in the map revision. -/
inductive Result where
  | ok (m : Image)
  | err (e : ParseErr)
  | ioError
deriving Repr, DecidableEq

/-- The parse loop of the map revision: data records are inserted at
`extended | offset` (the extended bank has its low 16 bits clear, so this
is `e ||| offset`); an end-of-file record must have no payload and ends
parsing without being stored; an extended-linear-address record with a
2-byte payload `[b0, b1]` replaces the bank by `(b0<<24)|(b1<<16)` —
written arithmetically since the two summands occupy disjoint bit ranges
for bytes; any other type is an error. -/
def parseLines : List (List Nat) → Nat → Nat → Image → Result
  | [], _, _, _ => .ioError
  | line :: rest, l, e, m =>
    if 1025 ≤ line.length then .ioError
    else
      caseExcept (parseLineCore line l) (fun err => .err err)
        (fun r =>
          if r.type = 0 then
            parseLines rest (l + 1) e (mapInsert m (e ||| r.address) r.data)
          else if r.type = 1 then
            if r.size ≠ 0 then .err ⟨l, 9, .eofHasData⟩ else .ok m
          else if r.type = 4 then
            if r.size ≠ 2 then .err ⟨l, 9, .wrongSizeExtAddr⟩
            else parseLines rest (l + 1)
              (r.data.getD 0 0 * 16777216 + r.data.getD 1 0 * 65536) m
          else .err ⟨l, 8, .unhandledType⟩)

/-- `IntelHex::Parse` (map revision): bank starts at 0, map starts
empty. -/
def Parse (f : List Nat) : Result := parseLines (fileLines f) 1 0 []

/-- The buffer bytes `IntelHex::WriteRecord` prints before the checksum:
length, address high/low, type, payload, each truncated to `uint8_t` (the
address parameter is a `uint16_t`). -/
def writeRecordBody (ty address : Nat) (data : List Nat) : List Nat :=
  data.length % 256 :: address % 65536 / 256 :: address % 65536 % 256 :: ty % 256 ::
    data.map (· % 256)

/-- The checksum byte `IntelHex::WriteRecord` prints: the running
two's-complement of all preceding record bytes. -/
def writeRecordCsum (ty address : Nat) (data : List Nat) : Nat :=
  (256 - ((writeRecordBody ty address data).foldl (· + ·) 0) % 256) % 256

/-- The characters of a `WriteRecord` line before the final `'\n'`. -/
def writeRecordContent (ty address : Nat) (data : List Nat) : List Nat :=
  58 :: IHexVec.hexChars (writeRecordBody ty address data ++ [writeRecordCsum ty address data])
    ++ [13]

/-- `IntelHex::WriteRecord`: serialize one record, computing the checksum
as the running two's-complement of all preceding record bytes. -/
def writeRecord (ty address : Nat) (data : List Nat) : List Nat :=
  writeRecordContent ty address data ++ [10]

/-- The loop of `IntelHex::Generate` (map revision) with the current bank
`e`: whenever an entry's high 16 bits (`k & 0xffff0000`, written as
`k / 65536 * 65536` for the `uint32_t` keys) differ from `e`, first emit
an extended-address record with payload `[k >> 24, (k >> 16) & 0xff]`;
after all entries, emit the end-of-file record. -/
def generateAux (e : Nat) : Image → List Nat
  | [] => writeRecord 1 0 []
  | (k, v) :: rest =>
    if k / 65536 * 65536 ≠ e then
      writeRecord 4 0 [k / 16777216 % 256, k / 65536 % 256]
        ++ writeRecord 0 k v
        ++ generateAux (k / 65536 * 65536) rest
    else
      writeRecord 0 k v ++ generateAux e rest

/-- `IntelHex::Generate` (map revision): bank starts at 0. -/
def Generate (m : Image) : List Nat := generateAux 0 m

/-- The per-entry loop of `IntelHex::Cipher` (map revision): XOR keystream
into each stored payload, in map (ascending-key) order. -/
def cipherGo : List Nat → Image → Image
  | _, [] => []
  | s, (k, v) :: rest =>
    let sr := arcfour_generate_stream s v.length
    (k, List.zipWith (fun a b => a ^^^ b) v sr.2) :: cipherGo sr.1 rest

/-- `IntelHex::Cipher` (map revision). -/
def Cipher (key : List Nat) (m : Image) : Image :=
  cipherGo (arcfour_generate_stream (arcfour_key_setup key) 256).1 m

/-- `IntelHex::operator==` (map revision): `std::map` equality, i.e. the
two key/payload sequences coincide. -/
def imageEq (a b : Image) : Bool := a == b

end IHexMap

/-! ## Well-formedness predicates -/

/-- A record whose stored checksum agrees with the recomputed one — the
invariant every record parsed from a checksum-valid line satisfies. -/
def recordOk (r : HexRecord) : Prop :=
  r.checksum = csumOf r.size r.address r.type r.data

instance (r : HexRecord) : Decidable (recordOk r) := by
  unfold recordOk; infer_instance

/-- The well-formedness a record enjoys exactly when it was produced by a
successful parse: consistent size field, byte-sized components, and a
stored checksum that matches the recomputed one. -/
def recordGood (r : HexRecord) : Prop :=
  r.size = r.data.length ∧ r.data.length ≤ 255 ∧ r.address < 65536 ∧ r.type < 256 ∧
    r.checksum < 256 ∧ (∀ b ∈ r.data, b < 256) ∧ recordOk r

instance (r : HexRecord) : Decidable (recordGood r) := by
  unfold recordGood; infer_instance

/-- The shape of a record list produced by the vector-revision parse
loop: all records well formed, exactly the last one of type 1. -/
def goodTail : List HexRecord → Prop
  | [] => False
  | r :: rest =>
    recordGood r ∧
      match rest with
      | [] => r.type = 1
      | _ :: _ => r.type ≠ 1 ∧ goodTail rest

/-- Well-formedness of one stored map entry: a 32-bit key and a payload of
at most 255 bytes, all byte-sized. -/
def entryGood (kv : Nat × List Nat) : Prop :=
  kv.1 < 4294967296 ∧ kv.2.length ≤ 255 ∧ ∀ b ∈ kv.2, b < 256

instance (kv : Nat × List Nat) : Decidable (entryGood kv) := by
  unfold entryGood; infer_instance

@[simp]
theorem caseExcept_error {ε α β : Type} (e : ε) (f : ε → β) (g : α → β) :
    caseExcept (Except.error e) f g = f e := rfl

@[simp]
theorem caseExcept_ok {ε α β : Type} (a : α) (f : ε → β) (g : α → β) :
    caseExcept (Except.ok a) f g = g a := rfl

/-! ## Keystream lemmas -/

theorem rc4streamAux_length (n : Nat) : ∀ s i j, (rc4streamAux s i j n).2.length = n := by
  induction n with
  | zero => intro s i j; rfl
  | succ n ih =>
    intro s i j
    simp only [rc4streamAux, List.length_cons]
    rw [ih]

theorem arcfour_generate_stream_length (s : List Nat) (n : Nat) :
    (arcfour_generate_stream s n).2.length = n :=
  rc4streamAux_length n s 0 0

theorem zipWith_xor_cancel :
    ∀ (d s : List Nat), d.length ≤ s.length →
      List.zipWith (fun a b => a ^^^ b) (List.zipWith (fun a b => a ^^^ b) d s) s = d := by
  intro d
  induction d with
  | nil => intro s _; simp
  | cons a d ih =>
    intro s hs
    cases s with
    | nil => simp at hs
    | cons b s =>
      simp only [List.zipWith_cons_cons, List.length_cons] at *
      rw [Nat.xor_assoc, Nat.xor_self, Nat.xor_zero, ih s (by omega)]



theorem cipherGo_vec_involution :
    ∀ (recs : List HexRecord) (s : List Nat), (∀ r ∈ recs, recordOk r) →
      IHexVec.cipherGo s (IHexVec.cipherGo s recs) = recs := by
  intro recs
  induction recs with
  | nil => intro s _; rfl
  | cons r rest ih =>
    intro s h
    have hr : recordOk r := h r (List.mem_cons_self r rest)
    have hlen : (arcfour_generate_stream s r.data.length).2.length = r.data.length :=
      arcfour_generate_stream_length ..
    simp only [IHexVec.cipherGo, HexRecord.updateChecksum]
    have hlen2 :
        (List.zipWith (fun a b => a ^^^ b) r.data (arcfour_generate_stream s r.data.length).2).length
          = r.data.length := by
      rw [List.length_zipWith, hlen, Nat.min_self]
    simp only [hlen2]
    rw [zipWith_xor_cancel r.data _ (by omega), ih _ (fun r hr => h r (List.mem_cons_of_mem _ hr))]
    have : csumOf r.size r.address r.type r.data = r.checksum := hr.symm
    simp [this]

theorem cipherGo_map_involution :
    ∀ (m : IHexMap.Image) (s : List Nat),
      IHexMap.cipherGo s (IHexMap.cipherGo s m) = m := by
  intro m
  induction m with
  | nil => intro s; rfl
  | cons kv rest ih =>
    intro s
    have hlen : (arcfour_generate_stream s kv.2.length).2.length = kv.2.length :=
      arcfour_generate_stream_length ..
    simp only [IHexMap.cipherGo]
    have hlen2 :
        (List.zipWith (fun a b => a ^^^ b) kv.2 (arcfour_generate_stream s kv.2.length).2).length
          = kv.2.length := by
      rw [List.length_zipWith, hlen, Nat.min_self]
    simp only [hlen2]
    rw [zipWith_xor_cancel kv.2 _ (by omega), ih]

/-- C1: for every key of length ≥ 1 and every decoded Image, applying the
Cipher pass twice with the same key restores the Image exactly, in both
the ordered-record (vector) revision — where every parsed record's stored
checksum matches its recomputed one — and the address-keyed (map)
revision. -/
theorem C1_cipher_involution (key : List Nat) (recs : List HexRecord) (m : IHexMap.Image)
    (hkey : 1 ≤ key.length) (hrecs : ∀ r ∈ recs, recordOk r) :
    IHexVec.Cipher key (IHexVec.Cipher key recs) = recs ∧
      IHexMap.Cipher key (IHexMap.Cipher key m) = m :=
  ⟨cipherGo_vec_involution recs _ hrecs, cipherGo_map_involution m _⟩

/-- Witness for C1 at a concrete key, record list and map. -/
theorem C1_cipher_involution_witness :
    IHexVec.Cipher [7] (IHexVec.Cipher [7] [⟨1, 3, 0, [171], 81⟩]) = [⟨1, 3, 0, [171], 81⟩] ∧
      IHexMap.Cipher [7] (IHexMap.Cipher [7] [(0, [5])]) = [(0, [5])] :=
  C1_cipher_involution [7] [⟨1, 3, 0, [171], 81⟩] [(0, [5])] (by decide) (by decide)

/-! ## C4: resumability of `arcfour_generate_stream` -/

theorem rc4streamAux_take :
    ∀ (n1 : Nat) (s : List Nat) (i j n2 : Nat),
      (rc4streamAux s i j (n1 + n2)).2.take n1 = (rc4streamAux s i j n1).2 := by
  intro n1
  induction n1 with
  | zero => intro s i j n2; rfl
  | succ n1 ih =>
    intro s i j n2
    have harith : n1 + 1 + n2 = (n1 + n2) + 1 := by omega
    rw [harith]
    simp only [rc4streamAux, List.take_succ_cons]
    rw [ih]

set_option maxRecDepth 100000 in
set_option maxHeartbeats 4000000 in
/-- Counterexample to C4: from the keyed state for the one-byte key `[0]`,
drawing 1 byte and then 1 more byte from the returned state does not
produce the same two bytes as drawing 2 bytes in one call — the two index
counters are local to each call of `arcfour_generate_stream` and restart
at zero. -/
theorem C4_stream_counterexample :
    ((arcfour_generate_stream (arcfour_key_setup [0]) 1).2 ++
        (arcfour_generate_stream (arcfour_generate_stream (arcfour_key_setup [0]) 1).1 1).2) ≠
      (arcfour_generate_stream (arcfour_key_setup [0]) 2).2 := by
  decide

/-- C4 (amended): within one call the generator is a running fold — a
single call of length `n1 + n2` emits a stream whose first `n1` bytes are
exactly the output of a call of length `n1` (and output length always
equals the requested length) — but a separate second call does not resume
the byte sequence, because the two index counters restart at zero on every
call; only the permutation state carries over. -/
theorem C4_stream_prefix_property (s : List Nat) (n1 n2 : Nat) :
    (arcfour_generate_stream s (n1 + n2)).2.take n1 = (arcfour_generate_stream s n1).2 ∧
      (arcfour_generate_stream s n1).2.length = n1 :=
  ⟨rc4streamAux_take n1 s 0 0 n2, arcfour_generate_stream_length s n1⟩

/-! ## C3: which records the Cipher pass touches -/

theorem cipherGo_vec_fields :
    ∀ (recs : List HexRecord) (s : List Nat),
      (IHexVec.cipherGo s recs).map (fun r => (r.size, r.address, r.type)) =
        recs.map (fun r => (r.size, r.address, r.type)) := by
  intro recs
  induction recs with
  | nil => intro s; rfl
  | cons r rest ih =>
    intro s
    simp only [IHexVec.cipherGo, HexRecord.updateChecksum, List.map_cons, List.cons.injEq]
    exact ⟨trivial, ih _⟩

theorem cipherGo_map_keys :
    ∀ (m : IHexMap.Image) (s : List Nat),
      (IHexMap.cipherGo s m).map Prod.fst = m.map Prod.fst := by
  intro m
  induction m with
  | nil => intro s; rfl
  | cons kv rest ih =>
    intro s
    simp only [IHexMap.cipherGo, List.map_cons, List.cons.injEq]
    exact ⟨trivial, ih _⟩

theorem cipherGo_vec_empty_payload :
    ∀ (recs : List HexRecord) (s : List Nat) (i : Nat) (r : HexRecord),
      recs[i]? = some r → r.data = [] → recordOk r →
      (IHexVec.cipherGo s recs)[i]? = some r := by
  intro recs
  induction recs with
  | nil => intro s i r h; simp at h
  | cons r0 rest ih =>
    intro s i r hget hdata hok
    cases i with
    | zero =>
      simp only [List.getElem?_cons_zero, Option.some.injEq] at hget
      subst hget
      simp only [IHexVec.cipherGo, HexRecord.updateChecksum, hdata, List.getElem?_cons_zero,
        List.zipWith_nil_left, Option.some.injEq]
      have h2 : csumOf r0.size r0.address r0.type [] = r0.checksum := by
        rw [← hdata]; exact hok.symm
      rw [h2, ← hdata]
    | succ i =>
      simp only [List.getElem?_cons_succ] at hget
      simp only [IHexVec.cipherGo, List.getElem?_cons_succ]
      exact ih _ i r hget hdata hok

set_option maxRecDepth 100000 in
set_option maxHeartbeats 4000000 in
/-- Counterexample to C3: in the ordered-record (vector) revision, the
Cipher pass with key `[0]` changes the payload of an image whose only
record is an ExtendedLinearAddress record (type 4, payload `[0, 0]`) —
non-Data payloads are XORed like any other. -/
theorem C3_counterexample :
    (IHexVec.Cipher [0] [⟨2, 0, 4, [0, 0], 250⟩]).map (fun r => r.type) = [4] ∧
      (IHexVec.Cipher [0] [⟨2, 0, 4, [0, 0], 250⟩]).map (fun r => r.data) ≠ [[0, 0]] := by
  constructor
  · have h := cipherGo_vec_fields [(⟨2, 0, 4, [0, 0], 250⟩ : HexRecord)]
      (arcfour_generate_stream (arcfour_key_setup [0]) 256).1
    have h2 := congrArg (List.map fun p => p.2.2) h
    simp only [List.map_map] at h2
    simpa [IHexVec.Cipher, Function.comp] using h2
  · decide

/-- C3 (amended): the Cipher pass leaves size, address and type of every
record unchanged and never alters a record whose payload is empty (in
particular EndOfFile records), and in the address-keyed revision it
preserves the stored addresses; but in the ordered-record revision it XORs
keystream into the payload of every stored record regardless of type, so
ExtendedLinearAddress payloads are enciphered as well, while in the
address-keyed revision only Data payloads are ever stored and hence only
they are ciphered. -/
theorem C3_cipher_frame (key : List Nat) (recs : List HexRecord) (m : IHexMap.Image) :
    (IHexVec.Cipher key recs).map (fun r => (r.size, r.address, r.type)) =
        recs.map (fun r => (r.size, r.address, r.type)) ∧
      (IHexMap.Cipher key m).map Prod.fst = m.map Prod.fst ∧
      (∀ (i : Nat) (r : HexRecord), recs[i]? = some r → r.data = [] → recordOk r →
        (IHexVec.Cipher key recs)[i]? = some r) :=
  ⟨cipherGo_vec_fields recs _, cipherGo_map_keys m _,
    fun i r h1 h2 h3 => cipherGo_vec_empty_payload recs _ i r h1 h2 h3⟩

/-- Witness for C3's amended theorem at a concrete key and image. -/
theorem C3_cipher_frame_witness :
    (IHexVec.Cipher [1] ([⟨0, 0, 1, [], 255⟩] : List HexRecord)).map
        (fun r => (r.size, r.address, r.type)) =
        ([⟨0, 0, 1, [], 255⟩] : List HexRecord).map (fun r => (r.size, r.address, r.type)) ∧
      (IHexVec.Cipher [1] ([⟨0, 0, 1, [], 255⟩] : List HexRecord))[0]? =
        some ⟨0, 0, 1, [], 255⟩ :=
  ⟨(C3_cipher_frame [1] [⟨0, 0, 1, [], 255⟩] []).1,
    (C3_cipher_frame [1] [⟨0, 0, 1, [], 255⟩] []).2.2 0 _ (by decide) (by decide) (by decide)⟩

/-! ## Hex digit and hex pair lemmas -/

theorem hexVal_lt (c v : Nat) (h : hexVal c = some v) : v < 16 := by
  unfold hexVal at h
  split_ifs at h <;> simp_all <;> omega

theorem hexVal_hexDigitChar (n : Nat) (h : n < 16) : hexVal (IHexVec.hexDigitChar n) = some n := by
  by_cases h10 : n < 10
  · have hc : IHexVec.hexDigitChar n = n + 48 := by simp [IHexVec.hexDigitChar, h10]
    rw [hc]
    unfold hexVal
    rw [if_pos (by omega)]
    simp
  · have hc : IHexVec.hexDigitChar n = n + 55 := by simp [IHexVec.hexDigitChar, h10]
    rw [hc]
    unfold hexVal
    rw [if_neg (by omega), if_neg (by omega), if_pos (by omega)]
    simp

theorem hexDigitChar_ge (n : Nat) : 48 ≤ IHexVec.hexDigitChar n := by
  unfold IHexVec.hexDigitChar; split_ifs <;> omega

theorem hexChars_cons (b : Nat) (bs : List Nat) :
    IHexVec.hexChars (b :: bs) = IHexVec.byteHexChars b ++ IHexVec.hexChars bs := by
  simp [IHexVec.hexChars]

theorem hexChars_length (bs : List Nat) : (IHexVec.hexChars bs).length = 2 * bs.length := by
  induction bs with
  | nil => rfl
  | cons b bs ih =>
    rw [hexChars_cons]
    simp [IHexVec.byteHexChars, ih]
    omega

theorem hexChars_mem_ge (bs : List Nat) : ∀ c ∈ IHexVec.hexChars bs, 48 ≤ c := by
  induction bs with
  | nil => intro c h; simp [IHexVec.hexChars] at h
  | cons b bs ih =>
    intro c h
    rw [hexChars_cons] at h
    rcases List.mem_append.mp h with h | h
    · simp [IHexVec.byteHexChars] at h
      rcases h with h | h <;> (rw [h]; exact hexDigitChar_ge _)
    · exact ih c h

theorem decodeHexChars_cons_pair (hi lo : Nat) (hhi : hi < 16) (hlo : lo < 16)
    (cs : List Nat) (i : Nat) :
    decodeHexChars (IHexVec.hexDigitChar hi :: IHexVec.hexDigitChar lo :: cs) i none =
      match decodeHexChars cs (i + 2) none with
      | .ok bs => .ok ((hi * 16 + lo) :: bs)
      | .error e => .error e := by
  simp only [decodeHexChars, hexVal_hexDigitChar hi hhi, hexVal_hexDigitChar lo hlo]

theorem decodeHexChars_hexChars (bs : List Nat) :
    ∀ i, (∀ b ∈ bs, b < 256) →
      decodeHexChars (IHexVec.hexChars bs ++ [13]) i none = .ok bs := by
  induction bs with
  | nil => intro i _; rfl
  | cons b bs ih =>
    intro i h
    have hb : b < 256 := h b (List.mem_cons_self b bs)
    have hmod : b % 256 = b := Nat.mod_eq_of_lt hb
    rw [hexChars_cons]
    simp only [IHexVec.byteHexChars, hmod, List.cons_append, List.nil_append]
    rw [decodeHexChars_cons_pair (b / 16) (b % 16) (by omega) (by omega)]
    rw [ih (i + 2) (fun x hx => h x (List.mem_cons_of_mem _ hx))]
    have : b / 16 * 16 + b % 16 = b := by omega
    rw [this]

theorem decodeHexChars_ok_lt :
    ∀ (cs : List Nat) (i : Nat) (p : Option Nat) (bs : List Nat),
      (∀ hi, p = some hi → hi < 16) →
      decodeHexChars cs i p = .ok bs → ∀ b ∈ bs, b < 256 := by
  intro cs
  induction cs with
  | nil =>
    intro i p bs _ h b hb
    simp only [decodeHexChars] at h
    cases h; simp at hb
  | cons c rest ih =>
    intro i p bs hp h b hb
    simp only [decodeHexChars] at h
    cases hv : hexVal c with
    | some v =>
      rw [hv] at h
      cases p with
      | none => exact ih (i + 1) (some v) bs (fun hi hhi => by cases hhi; exact hexVal_lt c v hv) h b hb
      | some hi =>
        cases hrec : decodeHexChars rest (i + 1) none with
        | ok bs' =>
          rw [hrec] at h
          cases h
          rcases List.mem_cons.mp hb with hceq | hmem
          · have h1 : hi < 16 := hp hi rfl
            have h2 : v < 16 := hexVal_lt c v hv
            omega
          · exact ih (i + 1) none bs' (by intro x hx; cases hx) hrec b hmem
        | error e => rw [hrec] at h; cases h
    | none =>
      rw [hv] at h
      by_cases hc : c = 13 ∧ rest = []
      · rw [if_pos hc] at h; cases h; simp at hb
      · rw [if_neg hc] at h; cases h

/-! ## Small list helpers -/

theorem foldl_add_eq (xs : List Nat) : ∀ a, xs.foldl (· + ·) a = a + xs.sum := by
  induction xs with
  | nil => intro a; simp
  | cons x xs ih => intro a; simp [List.foldl_cons, ih]; omega

theorem getD_append_len (xs : List Nat) (c : Nat) (ys : List Nat) :
    (xs ++ c :: ys).getD xs.length 0 = c := by
  induction xs with
  | nil => rfl
  | cons x xs ih => simpa using ih

theorem take_append_len (xs ys : List Nat) : (xs ++ ys).take xs.length = xs := by
  induction xs with
  | nil => rfl
  | cons x xs ih => simp [ih]

theorem map_mod_id (l : List Nat) (h : ∀ b ∈ l, b < 256) : l.map (· % 256) = l := by
  induction l with
  | nil => rfl
  | cons x xs ih =>
    have hx : x % 256 = x := Nat.mod_eq_of_lt (h x (List.mem_cons_self x xs))
    simp only [List.map_cons, hx, ih (fun b hb => h b (List.mem_cons_of_mem _ hb))]

/-! ## Per-line roundtrip: parsing a generated record line -/



theorem recordRawBytes_lt (r : HexRecord) : ∀ b ∈ IHexVec.recordRawBytes r, b < 256 := by
  intro b hb
  unfold IHexVec.recordRawBytes at hb
  rcases List.mem_cons.mp hb with h | hb
  · omega
  rcases List.mem_cons.mp hb with h | hb
  · omega
  rcases List.mem_cons.mp hb with h | hb
  · omega
  rcases List.mem_cons.mp hb with h | hb
  · omega
  rcases List.mem_append.mp hb with h | h
  · rcases List.mem_map.mp h with ⟨a, _, ha⟩
    omega
  · have h2 := List.mem_singleton.mp h
    omega

theorem recordRawBytes_eq (r : HexRecord) (h : recordGood r) :
    IHexVec.recordRawBytes r =
      r.size :: r.address / 256 :: r.address % 256 :: r.type :: (r.data ++ [r.checksum]) := by
  obtain ⟨hsz, hlen, haddr, hty, hcs, hdat, _⟩ := h
  simp only [IHexVec.recordRawBytes, Nat.mod_eq_of_lt haddr, Nat.mod_eq_of_lt hty,
    Nat.mod_eq_of_lt hcs, map_mod_id r.data hdat, Nat.mod_eq_of_lt (show r.size < 256 by omega)]

theorem recordLineContent_length (r : HexRecord) (h : recordGood r) :
    (IHexVec.recordLineContent r).length = 2 * r.data.length + 12 := by
  have hraw := recordRawBytes_eq r h
  simp [IHexVec.recordLineContent, hexChars_length, hraw]
  omega

theorem parseLineCore_decode_ok (line : List Nat) (l : Nat) (bs : List Nat)
    (hcond : ¬(line.length < 10 ∨ line.getD 0 0 ≠ 58))
    (hdec : decodeHexChars (line.drop 1) 1 none = .ok bs) :
    parseLineCore line l =
      if (bs.foldl (· + ·) 0) % 256 ≠ 0 then .error ⟨l, line.length - 2, .checksumError⟩
      else if bs.getD 0 0 + 5 ≠ bs.length then .error ⟨l, 2, .mismatchedLength⟩
      else .ok (HexRecord.ofBytes bs) := by
  unfold parseLineCore
  rw [if_neg hcond, hdec, caseExcept_ok]

theorem parseLineCore_decode_err (line : List Nat) (l : Nat) (e : Nat × ParseMsg)
    (hcond : ¬(line.length < 10 ∨ line.getD 0 0 ≠ 58))
    (hdec : decodeHexChars (line.drop 1) 1 none = .error e) :
    parseLineCore line l = .error ⟨l, e.1, e.2⟩ := by
  unfold parseLineCore
  rw [if_neg hcond, hdec, caseExcept_error]

theorem parseLineCore_recordLineContent (r : HexRecord) (h : recordGood r) (l : Nat) :
    parseLineCore (IHexVec.recordLineContent r) l = .ok r := by
  have hraw := recordRawBytes_eq r h
  have hclen := recordLineContent_length r h
  obtain ⟨hsz, hlen, haddr, hty, hcs, hdat, hok⟩ := h
  have hcond : ¬((IHexVec.recordLineContent r).length < 10 ∨
      (IHexVec.recordLineContent r).getD 0 0 ≠ 58) := by
    push_neg
    refine ⟨by omega, ?_⟩
    simp [IHexVec.recordLineContent]
  have hdrop : (IHexVec.recordLineContent r).drop 1 =
      IHexVec.hexChars (IHexVec.recordRawBytes r) ++ [13] := by
    simp [IHexVec.recordLineContent]
  rw [parseLineCore_decode_ok _ l (IHexVec.recordRawBytes r) hcond
    (by rw [hdrop]; exact decodeHexChars_hexChars _ 1 (recordRawBytes_lt r))]
  have hsum : ((IHexVec.recordRawBytes r).foldl (· + ·) 0) % 256 = 0 := by
    rw [hraw]
    unfold recordOk csumOf at hok
    rw [foldl_add_eq] at hok
    rw [foldl_add_eq]
    simp only [List.sum_cons, List.sum_append, List.sum_cons, List.sum_nil]
    rw [Nat.mod_eq_of_lt haddr] at hok
    omega
  rw [if_neg (by simp [hsum])]
  have hcount : ¬((IHexVec.recordRawBytes r).getD 0 0 + 5 ≠ (IHexVec.recordRawBytes r).length) := by
    rw [hraw]
    simp
    omega
  rw [if_neg hcount]
  have hfour : r.data.length + 4 = (((r.data.length + 1) + 1) + 1) + 1 := by omega
  have hchk : (r.size :: r.address / 256 :: r.address % 256 :: r.type ::
      (r.data ++ [r.checksum])).getD (r.size + 4) 0 = r.checksum := by
    rw [hsz, hfour]
    simp only [List.getD_cons_succ]
    exact getD_append_len r.data r.checksum []
  simp only [HexRecord.ofBytes, hraw, List.getD_cons_zero, List.getD_cons_succ,
    List.drop_succ_cons, List.drop_zero, hchk]
  rw [hsz, take_append_len]
  have haddr2 : r.address / 256 * 256 + r.address % 256 = r.address := by omega
  rw [haddr2, ← hsz]

/-! ## fileLines decomposition -/

theorem splitSegsAux_append (a : List Nat) (h : 10 ∉ a) :
    ∀ (rest acc : List Nat),
      splitSegsAux (a ++ 10 :: rest) acc = (acc.reverse ++ a) :: splitSegsAux rest [] := by
  induction a with
  | nil =>
    intro rest acc
    simp [splitSegsAux]
  | cons c a ih =>
    intro rest acc
    have hc : c ≠ 10 := fun hceq => h (hceq ▸ List.mem_cons_self c a)
    have ha : 10 ∉ a := fun hmem => h (List.mem_cons_of_mem c hmem)
    have hstep : splitSegsAux ((c :: a) ++ 10 :: rest) acc =
        splitSegsAux (a ++ 10 :: rest) (c :: acc) := by
      simp only [List.cons_append, splitSegsAux, if_neg hc]
      rfl
    rw [hstep, ih ha rest (c :: acc)]
    simp

theorem splitSegsAux_ne_nil : ∀ (f acc : List Nat), splitSegsAux f acc ≠ [] := by
  intro f
  induction f with
  | nil => intro acc h; simp [splitSegsAux] at h
  | cons c rest ih =>
    intro acc
    by_cases hc : c = 10
    · subst hc; simp [splitSegsAux]
    · simp only [splitSegsAux, if_neg hc]
      exact ih _

theorem fileLines_cons (a rest : List Nat) (h : 10 ∉ a) :
    fileLines (a ++ 10 :: rest) = a :: fileLines rest := by
  unfold fileLines splitSegs
  rw [splitSegsAux_append a h rest []]
  simp only [List.reverse_nil, List.nil_append]
  obtain ⟨s, ss, hss⟩ := List.exists_cons_of_ne_nil (splitSegsAux_ne_nil rest [])
  rw [hss]
  rfl

theorem no_nl_recordLineContent (r : HexRecord) : 10 ∉ IHexVec.recordLineContent r := by
  intro hmem
  unfold IHexVec.recordLineContent at hmem
  rcases List.mem_cons.mp hmem with h | hmem2
  · omega
  rcases List.mem_append.mp hmem2 with h | h
  · have := hexChars_mem_ge _ 10 h
    omega
  · have := List.mem_singleton.mp h
    omega

theorem fileLines_generate_vec (recs : List HexRecord) :
    fileLines (IHexVec.Generate recs) = recs.map IHexVec.recordLineContent := by
  induction recs with
  | nil => rfl
  | cons r rest ih =>
    have hgen : IHexVec.Generate (r :: rest) =
        IHexVec.recordLineContent r ++ 10 :: IHexVec.Generate rest := by
      simp [IHexVec.Generate, IHexVec.recordGenerate]
    rw [hgen, fileLines_cons _ _ (no_nl_recordLineContent r), ih]
    rfl

/-! ## The vector-revision roundtrip -/



theorem recordLineContent_short (r : HexRecord) (h : recordGood r) :
    ¬ 1025 ≤ (IHexVec.recordLineContent r).length := by
  rw [recordLineContent_length r h]
  have := h.2.1
  omega

theorem parseLines_vec_generate :
    ∀ (recs : List HexRecord) (l : Nat) (acc : List HexRecord), goodTail recs →
      IHexVec.parseLines (recs.map IHexVec.recordLineContent) l acc = .ok (acc ++ recs) := by
  intro recs
  induction recs with
  | nil => intro l acc h; cases h
  | cons r rest ih =>
    intro l acc h
    obtain ⟨hg, hrest⟩ := h
    simp only [List.map_cons, IHexVec.parseLines]
    rw [if_neg (recordLineContent_short r hg), parseLineCore_recordLineContent r hg l,
      caseExcept_ok]
    cases rest with
    | nil =>
      have ht : r.type = 1 := hrest
      rw [if_pos ht]
    | cons r2 rest2 =>
      obtain ⟨ht, htail⟩ := hrest
      rw [if_neg ht, ih (l + 1) (acc ++ [r]) htail]
      simp

theorem parseLineCore_ok_good (line : List Nat) (l : Nat) (r : HexRecord)
    (h : parseLineCore line l = .ok r) : recordGood r := by
  unfold parseLineCore at h
  by_cases h0 : line.length < 10 ∨ line.getD 0 0 ≠ 58
  · rw [if_pos h0] at h; cases h
  rw [if_neg h0] at h
  cases hdec : decodeHexChars (line.drop 1) 1 none with
  | error e => rw [hdec, caseExcept_error] at h; cases h
  | ok bs =>
    rw [hdec, caseExcept_ok] at h
    by_cases hs : (bs.foldl (· + ·) 0) % 256 ≠ 0
    · rw [if_pos hs] at h; cases h
    rw [if_neg hs] at h
    by_cases hc : bs.getD 0 0 + 5 ≠ bs.length
    · rw [if_pos hc] at h; cases h
    rw [if_neg hc] at h
    cases h
    push_neg at hs hc
    have hlt : ∀ b ∈ bs, b < 256 :=
      decodeHexChars_ok_lt _ 1 none bs (fun hi hhi => by cases hhi) hdec
    rcases bs with _ | ⟨b0, bs1⟩
    · simp at hc
    rcases bs1 with _ | ⟨b1, bs2⟩
    · simp at hc
    rcases bs2 with _ | ⟨b2, bs3⟩
    · simp at hc
    rcases bs3 with _ | ⟨b3, t⟩
    · simp at hc
    simp only [List.getD_cons_zero, List.length_cons] at hc
    have htlen : t.length = b0 + 1 := by omega
    have htne : t ≠ [] := by
      intro hteq; rw [hteq] at htlen; simp at htlen
    obtain ⟨d, c, hdc⟩ : ∃ d c, t = d ++ [c] :=
      ⟨t.dropLast, t.getLast htne, (List.dropLast_append_getLast htne).symm⟩
    subst hdc
    have hdlen : d.length = b0 := by
      simp at htlen; omega
    have hchk2 : (b0 :: b1 :: b2 :: b3 :: (d ++ [c])).getD (b0 + 4) 0 = c := by
      have hfour : b0 + 4 = (((b0 + 1) + 1) + 1) + 1 := by omega
      rw [hfour]
      simp only [List.getD_cons_succ]
      rw [← hdlen]
      exact getD_append_len d c []
    have htake : (d ++ [c]).take b0 = d := by
      rw [← hdlen]; exact take_append_len d [c]
    have hofb : HexRecord.ofBytes (b0 :: b1 :: b2 :: b3 :: (d ++ [c])) =
        ⟨b0, b1 * 256 + b2, b3, d, c⟩ := by
      unfold HexRecord.ofBytes
      simp only [List.getD_cons_zero, List.getD_cons_succ, List.drop_succ_cons,
        List.drop_zero, hchk2, htake]
    rw [hofb]
    have hb0 : b0 < 256 := hlt b0 (by simp)
    have hb1 : b1 < 256 := hlt b1 (by simp)
    have hb2 : b2 < 256 := hlt b2 (by simp)
    have hb3 : b3 < 256 := hlt b3 (by simp)
    have hcl : c < 256 := hlt c (by simp)
    have hdl : ∀ b ∈ d, b < 256 := fun b hb => hlt b (by simp [hb])
    refine ⟨show b0 = d.length by omega, show d.length ≤ 255 by omega,
      show b1 * 256 + b2 < 65536 by omega, hb3, hcl, hdl, ?_⟩
    show c = csumOf b0 (b1 * 256 + b2) b3 d
    unfold csumOf
    rw [foldl_add_eq] at hs
    rw [foldl_add_eq]
    simp only [List.sum_cons, List.sum_append, List.sum_nil] at hs
    omega

theorem parseLines_vec_ok_good :
    ∀ (L : List (List Nat)) (l : Nat) (acc rs : List HexRecord),
      IHexVec.parseLines L l acc = .ok rs →
      ∃ tail, rs = acc ++ tail ∧ goodTail tail := by
  intro L
  induction L with
  | nil => intro l acc rs h; cases h
  | cons line rest ih =>
    intro l acc rs h
    simp only [IHexVec.parseLines] at h
    by_cases hlen : 1025 ≤ line.length
    · rw [if_pos hlen] at h; cases h
    rw [if_neg hlen] at h
    cases hpl : parseLineCore line l with
    | error e => rw [hpl, caseExcept_error] at h; cases h
    | ok r =>
      rw [hpl, caseExcept_ok] at h
      have hg := parseLineCore_ok_good line l r hpl
      by_cases ht : r.type = 1
      · rw [if_pos ht] at h
        cases h
        exact ⟨[r], rfl, hg, ht⟩
      · rw [if_neg ht] at h
        obtain ⟨tail, htl, hgt⟩ := ih (l + 1) (acc ++ [r]) rs h
        refine ⟨r :: tail, by simp [htl], ?_⟩
        cases tail with
        | nil => cases hgt
        | cons t ts => exact ⟨hg, ht, hgt⟩

theorem parse_generate_vec (f : List Nat) (rs : List HexRecord)
    (h : IHexVec.Parse f = .ok rs) : IHexVec.Parse (IHexVec.Generate rs) = .ok rs := by
  obtain ⟨tail, htl, hgt⟩ := parseLines_vec_ok_good _ 1 [] rs h
  simp only [List.nil_append] at htl
  subst htl
  unfold IHexVec.Parse
  rw [fileLines_generate_vec, parseLines_vec_generate rs 1 [] hgt]
  simp

/-! ## Disjoint-range bitwise or is addition -/

theorem lor_two_pow_mul (n : Nat) : ∀ (x b : Nat), b < 2 ^ n → (2 ^ n * x) ||| b = 2 ^ n * x + b := by
  induction n with
  | zero =>
    intro x b hb
    have hb0 : b = 0 := by omega
    subst hb0
    simp
  | succ n ih =>
    intro x b hb
    have hpow : 2 ^ (n + 1) = 2 * 2 ^ n := by ring
    have hb2 : b / 2 < 2 ^ n := by omega
    have key := ih x (b / 2) hb2
    have hxbit : Nat.bit false (2 ^ n * x) = 2 ^ (n + 1) * x := by
      rw [Nat.bit_val, hpow]
      simp only [Bool.toNat_false]
      ring
    rcases Nat.mod_two_eq_zero_or_one b with hpar | hpar
    · have hbbit : Nat.bit false (b / 2) = b := by
        rw [Nat.bit_val]
        simp only [Bool.toNat_false]
        omega
      rw [← hxbit, ← hbbit, Nat.lor_bit, key]
      simp only [Bool.false_or, Nat.bit_val, Bool.toNat_false]
      omega
    · have hbbit : Nat.bit true (b / 2) = b := by
        rw [Nat.bit_val]
        simp only [Bool.toNat_true]
        omega
      rw [← hxbit, ← hbbit, Nat.lor_bit, key]
      simp only [Bool.false_or, Nat.bit_val, Bool.toNat_false, Bool.toNat_true]
      omega

theorem lor_bank (e b : Nat) (he : e % 65536 = 0) (hb : b < 65536) : e ||| b = e + b := by
  obtain ⟨x, hx⟩ : ∃ x, e = 65536 * x := ⟨e / 65536, by omega⟩
  subst hx
  have h16 : (65536 : Nat) = 2 ^ 16 := by norm_num
  rw [h16]
  exact lor_two_pow_mul 16 x b (by omega)

/-! ## WriteRecord lines parse back -/

theorem writeRecordCsum_lt (ty address : Nat) (data : List Nat) :
    IHexMap.writeRecordCsum ty address data < 256 := by
  unfold IHexMap.writeRecordCsum
  omega

theorem writeRecordContent_record (ty address : Nat) (data : List Nat)
    (hlen : data.length ≤ 255) (hb : ∀ b ∈ data, b < 256) (hty : ty < 256) :
    IHexMap.writeRecordContent ty address data =
        IHexVec.recordLineContent
          ⟨data.length, address % 65536, ty, data, IHexMap.writeRecordCsum ty address data⟩ ∧
      recordGood
        ⟨data.length, address % 65536, ty, data, IHexMap.writeRecordCsum ty address data⟩ := by
  have hcs := writeRecordCsum_lt ty address data
  have hraw : IHexVec.recordRawBytes
      ⟨data.length, address % 65536, ty, data, IHexMap.writeRecordCsum ty address data⟩ =
      IHexMap.writeRecordBody ty address data ++ [IHexMap.writeRecordCsum ty address data] := by
    unfold IHexVec.recordRawBytes IHexMap.writeRecordBody
    have h1 : address % 65536 % 65536 = address % 65536 := by omega
    have h3 : IHexMap.writeRecordCsum ty address data % 256 =
        IHexMap.writeRecordCsum ty address data := by omega
    simp only [h1, h3, List.cons_append]
  constructor
  · unfold IHexMap.writeRecordContent IHexVec.recordLineContent
    rw [hraw]
  · refine ⟨rfl, hlen, show address % 65536 < 65536 by omega, hty, hcs, hb, ?_⟩
    show IHexMap.writeRecordCsum ty address data =
      csumOf data.length (address % 65536) ty data
    unfold IHexMap.writeRecordCsum IHexMap.writeRecordBody csumOf
    rw [foldl_add_eq, foldl_add_eq]
    simp only [List.sum_cons]
    rw [map_mod_id data hb]
    have h1 : address % 65536 % 65536 = address % 65536 := by omega
    have h2 : address % 65536 % 256 = address % 256 := by omega
    have h3 : data.length % 256 = data.length := by omega
    have h4 : ty % 256 = ty := by omega
    rw [h1, h2, h3, h4]
    omega

theorem parseLineCore_writeRecordContent (ty address : Nat) (data : List Nat) (l : Nat)
    (hlen : data.length ≤ 255) (hb : ∀ b ∈ data, b < 256) (hty : ty < 256) :
    parseLineCore (IHexMap.writeRecordContent ty address data) l =
      .ok ⟨data.length, address % 65536, ty, data, IHexMap.writeRecordCsum ty address data⟩ := by
  obtain ⟨heq, hgood⟩ := writeRecordContent_record ty address data hlen hb hty
  rw [heq]
  exact parseLineCore_recordLineContent _ hgood l

/-! ## mapInsert lemmas -/

theorem mapInsert_append (m : IHexMap.Image) (k : Nat) (v : List Nat)
    (h : ∀ kv ∈ m, kv.1 < k) : IHexMap.mapInsert m k v = m ++ [(k, v)] := by
  induction m with
  | nil => rfl
  | cons kv rest ih =>
    obtain ⟨k0, v0⟩ := kv
    have hk : k0 < k := h (k0, v0) (List.mem_cons_self _ _)
    unfold IHexMap.mapInsert
    rw [if_neg (by omega), if_neg (by omega),
      ih (fun kv hkv => h kv (List.mem_cons_of_mem _ hkv))]
    rfl

theorem mapInsert_mem (m : IHexMap.Image) (k : Nat) (v : List Nat) :
    ∀ kv, kv ∈ IHexMap.mapInsert m k v → kv ∈ m ∨ kv = (k, v) := by
  induction m with
  | nil =>
    intro kv h
    simp only [IHexMap.mapInsert, List.mem_singleton] at h
    exact Or.inr h
  | cons kv0 rest ih =>
    obtain ⟨k0, v0⟩ := kv0
    intro kv h
    unfold IHexMap.mapInsert at h
    by_cases h1 : k < k0
    · rw [if_pos h1] at h
      rcases List.mem_cons.mp h with h | h
      · exact Or.inr h
      · exact Or.inl h
    rw [if_neg h1] at h
    by_cases h2 : k = k0
    · rw [if_pos h2] at h
      exact Or.inl h
    rw [if_neg h2] at h
    rcases List.mem_cons.mp h with h | h
    · exact Or.inl (h ▸ List.mem_cons_self _ _)
    · rcases ih kv h with h | h
      · exact Or.inl (List.mem_cons_of_mem _ h)
      · exact Or.inr h

theorem mapInsert_pairwise (m : IHexMap.Image) (k : Nat) (v : List Nat)
    (h : m.Pairwise (fun a b => a.1 < b.1)) :
    (IHexMap.mapInsert m k v).Pairwise (fun a b => a.1 < b.1) := by
  induction m with
  | nil => simp [IHexMap.mapInsert]
  | cons kv0 rest ih =>
    obtain ⟨k0, v0⟩ := kv0
    rw [List.pairwise_cons] at h
    obtain ⟨hall, hrest⟩ := h
    unfold IHexMap.mapInsert
    by_cases h1 : k < k0
    · rw [if_pos h1]
      rw [List.pairwise_cons]
      refine ⟨?_, List.pairwise_cons.mpr ⟨hall, hrest⟩⟩
      intro kv hkv
      rcases List.mem_cons.mp hkv with h | h
      · rw [h]
        show k < k0
        omega
      · have h2 : k0 < kv.1 := hall kv h
        show k < kv.1
        omega
    rw [if_neg h1]
    by_cases h2 : k = k0
    · rw [if_pos h2]
      exact List.pairwise_cons.mpr ⟨hall, hrest⟩
    rw [if_neg h2]
    rw [List.pairwise_cons]
    refine ⟨?_, ih hrest⟩
    intro kv hkv
    rcases mapInsert_mem rest k v kv hkv with h | h
    · exact hall kv h
    · rw [h]
      show k0 < k
      omega

theorem mapInsert_existing (m : IHexMap.Image) (k : Nat) (v : List Nat)
    (hs : m.Pairwise (fun a b => a.1 < b.1)) (h : k ∈ m.map Prod.fst) :
    IHexMap.mapInsert m k v = m := by
  induction m with
  | nil => simp at h
  | cons kv0 rest ih =>
    obtain ⟨k0, v0⟩ := kv0
    rw [List.pairwise_cons] at hs
    obtain ⟨hall, hrest⟩ := hs
    simp only [List.map_cons, List.mem_cons] at h
    unfold IHexMap.mapInsert
    rcases h with h | h
    · rw [if_neg (by omega), if_pos (by omega)]
    · have hk0 : k0 < k := by
        rcases List.mem_map.mp h with ⟨kv, hkv, hfst⟩
        have := hall kv hkv
        omega
      rw [if_neg (by omega), if_neg (by omega), ih hrest h]

/-! ## Map-revision parse steps -/

theorem parseLines_map_data_step (line : List Nat) (L : List (List Nat)) (l e : Nat)
    (m : IHexMap.Image) (r : HexRecord)
    (hline : ¬ 1025 ≤ line.length)
    (hr : parseLineCore line l = .ok r) (ht : r.type = 0) :
    IHexMap.parseLines (line :: L) l e m =
      IHexMap.parseLines L (l + 1) e (IHexMap.mapInsert m (e ||| r.address) r.data) := by
  simp only [IHexMap.parseLines]
  rw [if_neg hline, hr, caseExcept_ok]
  rw [if_pos ht]

theorem parseLines_map_ela_step (line : List Nat) (L : List (List Nat)) (l e : Nat)
    (m : IHexMap.Image) (r : HexRecord)
    (hline : ¬ 1025 ≤ line.length)
    (hr : parseLineCore line l = .ok r) (ht : r.type = 4) (hs : r.size = 2) :
    IHexMap.parseLines (line :: L) l e m =
      IHexMap.parseLines L (l + 1)
        (r.data.getD 0 0 * 16777216 + r.data.getD 1 0 * 65536) m := by
  simp only [IHexMap.parseLines]
  rw [if_neg hline, hr, caseExcept_ok]
  rw [if_neg (by omega), if_neg (by omega), if_pos ht, if_neg (by omega)]

theorem parseLines_map_eof_step (line : List Nat) (L : List (List Nat)) (l e : Nat)
    (m : IHexMap.Image) (r : HexRecord)
    (hline : ¬ 1025 ≤ line.length)
    (hr : parseLineCore line l = .ok r) (ht : r.type = 1) (hs : r.size = 0) :
    IHexMap.parseLines (line :: L) l e m = .ok m := by
  simp only [IHexMap.parseLines]
  rw [if_neg hline, hr, caseExcept_ok]
  rw [if_neg (by omega), if_pos ht, if_neg (by omega)]

/-! ## The map-revision roundtrip -/

theorem no_nl_writeRecordContent (ty address : Nat) (data : List Nat)
    (hlen : data.length ≤ 255) (hb : ∀ b ∈ data, b < 256) (hty : ty < 256) :
    10 ∉ IHexMap.writeRecordContent ty address data := by
  rw [(writeRecordContent_record ty address data hlen hb hty).1]
  exact no_nl_recordLineContent _

theorem writeRecordContent_short (ty address : Nat) (data : List Nat)
    (hlen : data.length ≤ 255) (hb : ∀ b ∈ data, b < 256) (hty : ty < 256) :
    ¬ 1025 ≤ (IHexMap.writeRecordContent ty address data).length := by
  rw [(writeRecordContent_record ty address data hlen hb hty).1]
  exact recordLineContent_short _ (writeRecordContent_record ty address data hlen hb hty).2

theorem writeRecord_append (ty address : Nat) (data : List Nat) (X : List Nat) :
    IHexMap.writeRecord ty address data ++ X =
      IHexMap.writeRecordContent ty address data ++ 10 :: X := by
  unfold IHexMap.writeRecord
  simp



theorem parseLines_map_generateAux :
    ∀ (ents : IHexMap.Image) (e : Nat) (m : IHexMap.Image) (l : Nat),
      ents.Pairwise (fun a b => a.1 < b.1) →
      (∀ kv ∈ ents, entryGood kv) →
      (∀ kv ∈ m, ∀ kv' ∈ ents, kv.1 < kv'.1) →
      IHexMap.parseLines (fileLines (IHexMap.generateAux e ents)) l e m = .ok (m ++ ents) := by
  intro ents
  induction ents with
  | nil =>
    intro e m l _ _ _
    have hgood : ([] : List Nat).length ≤ 255 := by simp
    have hb : ∀ b ∈ ([] : List Nat), b < 256 := by simp
    have hty : (1 : Nat) < 256 := by omega
    show IHexMap.parseLines (fileLines (IHexMap.writeRecord 1 0 [])) l e m = .ok (m ++ [])
    have hfl : fileLines (IHexMap.writeRecord 1 0 []) = [IHexMap.writeRecordContent 1 0 []] := by
      unfold IHexMap.writeRecord
      rw [show IHexMap.writeRecordContent 1 0 [] ++ [10] =
        IHexMap.writeRecordContent 1 0 [] ++ 10 :: [] from rfl]
      rw [fileLines_cons _ _ (no_nl_writeRecordContent 1 0 [] hgood hb hty)]
      rfl
    rw [hfl, parseLines_map_eof_step _ [] l e m _
      (writeRecordContent_short 1 0 [] hgood hb hty)
      (parseLineCore_writeRecordContent 1 0 [] l hgood hb hty) rfl rfl]
    simp
  | cons kv rest ih =>
    obtain ⟨k, v⟩ := kv
    intro e m l hpw hgood hlt
    have hkg : entryGood (k, v) := hgood (k, v) (List.mem_cons_self _ _)
    obtain ⟨hk, hv, hb⟩ := hkg
    have hty0 : (0 : Nat) < 256 := by omega
    rw [List.pairwise_cons] at hpw
    obtain ⟨hall, hrest⟩ := hpw
    have hdata : ∀ (L : List (List Nat)) (l' : Nat),
        IHexMap.parseLines (IHexMap.writeRecordContent 0 k v :: L) l' (k / 65536 * 65536) m =
          IHexMap.parseLines L (l' + 1) (k / 65536 * 65536) (m ++ [(k, v)]) := by
      intro L l'
      rw [parseLines_map_data_step _ L l' _ m _
        (writeRecordContent_short 0 k v hv hb hty0)
        (parseLineCore_writeRecordContent 0 k v l' hv hb hty0) rfl]
      have hlor : (k / 65536 * 65536) |||
          (⟨v.length, k % 65536, 0, v, IHexMap.writeRecordCsum 0 k v⟩ : HexRecord).address
          = k := by
        show (k / 65536 * 65536) ||| (k % 65536) = k
        rw [lor_bank _ _ (by omega) (by omega)]
        omega
      rw [hlor]
      have hins : IHexMap.mapInsert m k
          (⟨v.length, k % 65536, 0, v, IHexMap.writeRecordCsum 0 k v⟩ : HexRecord).data
          = m ++ [(k, v)] := by
        show IHexMap.mapInsert m k v = m ++ [(k, v)]
        exact mapInsert_append m k v
          (fun kv hkv => hlt kv hkv (k, v) (List.mem_cons_self _ _))
      rw [hins]
    have hrec : ∀ (l' : Nat),
        IHexMap.parseLines (fileLines (IHexMap.generateAux (k / 65536 * 65536) rest))
          l' (k / 65536 * 65536) (m ++ [(k, v)]) = .ok ((m ++ [(k, v)]) ++ rest) := by
      intro l'
      apply ih (k / 65536 * 65536) (m ++ [(k, v)]) l' hrest
        (fun kv hkv => hgood kv (List.mem_cons_of_mem _ hkv))
      intro kv hkv kv' hkv'
      rcases List.mem_append.mp hkv with h | h
      · exact hlt kv h kv' (List.mem_cons_of_mem _ hkv')
      · have hkkv : kv = (k, v) := List.mem_singleton.mp h
        rw [hkkv]
        show k < kv'.1
        exact hall kv' hkv'
    by_cases hbank : k / 65536 * 65536 ≠ e
    · have hgen : IHexMap.generateAux e ((k, v) :: rest) =
          IHexMap.writeRecord 4 0 [k / 16777216 % 256, k / 65536 % 256]
            ++ IHexMap.writeRecord 0 k v
            ++ IHexMap.generateAux (k / 65536 * 65536) rest := by
        simp only [IHexMap.generateAux]
        rw [if_pos hbank]
      have hela2 : ([k / 16777216 % 256, k / 65536 % 256] : List Nat).length ≤ 255 := by simp
      have helab : ∀ b ∈ ([k / 16777216 % 256, k / 65536 % 256] : List Nat), b < 256 := by
        intro b hb2
        rcases List.mem_cons.mp hb2 with h | h2
        · omega
        · have := List.mem_singleton.mp h2
          omega
      have hty4 : (4 : Nat) < 256 := by omega
      rw [hgen]
      have hfl : fileLines (IHexMap.writeRecord 4 0 [k / 16777216 % 256, k / 65536 % 256]
            ++ IHexMap.writeRecord 0 k v
            ++ IHexMap.generateAux (k / 65536 * 65536) rest) =
          IHexMap.writeRecordContent 4 0 [k / 16777216 % 256, k / 65536 % 256] ::
            IHexMap.writeRecordContent 0 k v ::
            fileLines (IHexMap.generateAux (k / 65536 * 65536) rest) := by
        rw [List.append_assoc, writeRecord_append,
          fileLines_cons _ _ (no_nl_writeRecordContent 4 0 _ hela2 helab hty4),
          writeRecord_append,
          fileLines_cons _ _ (no_nl_writeRecordContent 0 k v hv hb hty0)]
      rw [hfl]
      rw [parseLines_map_ela_step _ _ l e m _
        (writeRecordContent_short 4 0 _ hela2 helab hty4)
        (parseLineCore_writeRecordContent 4 0 _ l hela2 helab hty4) rfl rfl]
      have hbank2 : (⟨2, 0, 4, [k / 16777216 % 256, k / 65536 % 256],
          IHexMap.writeRecordCsum 4 0 [k / 16777216 % 256, k / 65536 % 256]⟩ :
            HexRecord).data.getD 0 0 * 16777216 +
          (⟨2, 0, 4, [k / 16777216 % 256, k / 65536 % 256],
          IHexMap.writeRecordCsum 4 0 [k / 16777216 % 256, k / 65536 % 256]⟩ :
            HexRecord).data.getD 1 0 * 65536 = k / 65536 * 65536 := by
        show (k / 16777216 % 256) * 16777216 + (k / 65536 % 256) * 65536 = k / 65536 * 65536
        omega
      rw [hbank2, hdata, hrec]
      simp
    · push_neg at hbank
      have hgen : IHexMap.generateAux e ((k, v) :: rest) =
          IHexMap.writeRecord 0 k v ++ IHexMap.generateAux e rest := by
        simp only [IHexMap.generateAux]
        rw [if_neg (by omega)]
      rw [hgen, writeRecord_append,
        fileLines_cons _ _ (no_nl_writeRecordContent 0 k v hv hb hty0), ← hbank,
        hdata, hrec]
      simp

theorem getD_lt_256 : ∀ (l : List Nat), (∀ b ∈ l, b < 256) → ∀ i, l.getD i 0 < 256 := by
  intro l
  induction l with
  | nil => intro _ i; cases i <;> simp [List.getD]
  | cons x xs ih =>
    intro h i
    cases i with
    | zero => exact h x (List.mem_cons_self x xs)
    | succ i =>
      rw [List.getD_cons_succ]
      exact ih (fun b hb => h b (List.mem_cons_of_mem _ hb)) i

theorem parseLines_map_ok_inv :
    ∀ (L : List (List Nat)) (l e : Nat) (m0 m : IHexMap.Image),
      IHexMap.parseLines L l e m0 = .ok m →
      m0.Pairwise (fun a b => a.1 < b.1) → (∀ kv ∈ m0, entryGood kv) →
      e % 65536 = 0 → e ≤ 4294901760 →
      m.Pairwise (fun a b => a.1 < b.1) ∧ (∀ kv ∈ m, entryGood kv) := by
  intro L
  induction L with
  | nil => intro l e m0 m h _ _ _ _; cases h
  | cons line rest ih =>
    intro l e m0 m h hs hg he1 he2
    simp only [IHexMap.parseLines] at h
    by_cases hline : 1025 ≤ line.length
    · rw [if_pos hline] at h; cases h
    rw [if_neg hline] at h
    cases hpl : parseLineCore line l with
    | error er => rw [hpl, caseExcept_error] at h; cases h
    | ok r =>
      rw [hpl, caseExcept_ok] at h
      have hrg := parseLineCore_ok_good line l r hpl
      have haddr : r.address < 65536 := hrg.2.2.1
      have hbytes : ∀ b ∈ r.data, b < 256 := hrg.2.2.2.2.2.1
      by_cases ht0 : r.type = 0
      · rw [if_pos ht0] at h
        have hlor : e ||| r.address = e + r.address := lor_bank _ _ he1 haddr
        apply ih _ _ _ _ h (mapInsert_pairwise _ _ _ hs) ?_ he1 he2
        intro kv hkv
        rcases mapInsert_mem _ _ _ kv hkv with hm | hm
        · exact hg kv hm
        · rw [hm]
          exact ⟨show e ||| r.address < 4294967296 by omega,
            hrg.2.1, hbytes⟩
      rw [if_neg ht0] at h
      by_cases ht1 : r.type = 1
      · rw [if_pos ht1] at h
        by_cases hsz : r.size ≠ 0
        · rw [if_pos hsz] at h; cases h
        · rw [if_neg hsz] at h
          cases h
          exact ⟨hs, hg⟩
      rw [if_neg ht1] at h
      by_cases ht4 : r.type = 4
      · rw [if_pos ht4] at h
        by_cases hsz : r.size ≠ 2
        · rw [if_pos hsz] at h; cases h
        · rw [if_neg hsz] at h
          have hg0 := getD_lt_256 r.data hbytes 0
          have hg1 := getD_lt_256 r.data hbytes 1
          exact ih _ _ _ _ h hs hg (by omega) (by omega)
      rw [if_neg ht4] at h
      cases h

theorem parse_generate_map (f : List Nat) (m : IHexMap.Image)
    (h : IHexMap.Parse f = .ok m) : IHexMap.Parse (IHexMap.Generate m) = .ok m := by
  obtain ⟨hs, hg⟩ := parseLines_map_ok_inv _ 1 0 [] m h (by simp) (by simp)
    (by omega) (by omega)
  unfold IHexMap.Parse IHexMap.Generate
  have hmain := parseLines_map_generateAux m 0 [] 1 hs hg (by simp)
  simpa using hmain

/-! ## C2: round-trip identity -/

/-- Counterexample to C2: the file `":00000001ff\n"` is accepted by the
decoder (hex digits are case-insensitive on input), but re-encoding the
decoded Image produces `":00000001FF\r\n"` — not byte-identical to the
input. -/
theorem C2_roundtrip_counterexample :
    IHexVec.Parse [58, 48, 48, 48, 48, 48, 48, 48, 49, 102, 102, 10] =
        .ok [⟨0, 0, 1, [], 255⟩] ∧
      IHexVec.Generate [⟨0, 0, 1, [], 255⟩] ≠
        [58, 48, 48, 48, 48, 48, 48, 48, 49, 102, 102, 10] := by
  constructor
  · decide
  · decide

/-- C2 (amended): for every input file accepted by decode, re-encoding the
decoded Image produces a file that decodes to exactly the same Image, in
both revisions — so `decode → encode` is idempotent after one
normalisation pass, and in the map revision the payload-at-address mapping
of the output equals the input's.  Byte-identical output is only
guaranteed when the input is already in canonical form (uppercase hex,
CRLF line ends); a lowercase but well-formed input decodes successfully
yet re-encodes differently. -/
theorem C2_roundtrip (f : List Nat) (rs : List HexRecord) (m : IHexMap.Image) :
    (IHexVec.Parse f = .ok rs → IHexVec.Parse (IHexVec.Generate rs) = .ok rs) ∧
      (IHexMap.Parse f = .ok m → IHexMap.Parse (IHexMap.Generate m) = .ok m) :=
  ⟨parse_generate_vec f rs, parse_generate_map f m⟩

/-- Witness for C2's amended theorem on a concrete two-line file. -/
theorem C2_roundtrip_witness :
    IHexVec.Parse (IHexVec.Generate
        [⟨1, 0, 0, [66], 189⟩, ⟨0, 0, 1, [], 255⟩]) =
        .ok [⟨1, 0, 0, [66], 189⟩, ⟨0, 0, 1, [], 255⟩] ∧
      IHexMap.Parse (IHexMap.Generate [(0, [66])]) = .ok [(0, [66])] :=
  ⟨(C2_roundtrip
      [58, 48, 49, 48, 48, 48, 48, 48, 48, 52, 50, 66, 68, 13, 10,
       58, 48, 48, 48, 48, 48, 48, 48, 49, 70, 70, 13, 10]
      [⟨1, 0, 0, [66], 189⟩, ⟨0, 0, 1, [], 255⟩] [(0, [66])]).1 (by decide),
    (C2_roundtrip
      [58, 48, 49, 48, 48, 48, 48, 48, 48, 52, 50, 66, 68, 13, 10,
       58, 48, 48, 48, 48, 48, 48, 48, 49, 70, 70, 13, 10]
      [⟨1, 0, 0, [66], 189⟩, ⟨0, 0, 1, [], 255⟩] [(0, [66])]).2 (by decide)⟩

/-! ## Error propagation steps -/

theorem parseLines_vec_err_step (line : List Nat) (L : List (List Nat)) (l : Nat)
    (acc : List HexRecord) (er : ParseErr)
    (hline : ¬ 1025 ≤ line.length) (h : parseLineCore line l = .error er) :
    IHexVec.parseLines (line :: L) l acc = .err er := by
  simp only [IHexVec.parseLines]
  rw [if_neg hline, h, caseExcept_error]

theorem parseLines_map_err_step (line : List Nat) (L : List (List Nat)) (l e : Nat)
    (m : IHexMap.Image) (er : ParseErr)
    (hline : ¬ 1025 ≤ line.length) (h : parseLineCore line l = .error er) :
    IHexMap.parseLines (line :: L) l e m = .err er := by
  simp only [IHexMap.parseLines]
  rw [if_neg hline, h, caseExcept_error]

/-! ## C6: checksum enforcement -/

/-- C6: a line that passes the structural checks (starts with `':'`, long
enough, all hex pairs decoded) but whose decoded bytes do not sum to zero
mod 256 is rejected with the dedicated checksum diagnostic at column
`length - 2`, in the shared line parser and in both revisions' parse
loops; and that diagnostic is distinct from every `FormatError`
diagnostic. -/
theorem C6_checksum_enforcement (line : List Nat) (l : Nat) (bs : List Nat)
    (L : List (List Nat)) (acc : List HexRecord) (e : Nat) (m : IHexMap.Image)
    (hlen : 10 ≤ line.length) (hcolon : line.getD 0 0 = 58)
    (hdec : decodeHexChars (line.drop 1) 1 none = .ok bs)
    (hsum : (bs.foldl (· + ·) 0) % 256 ≠ 0) :
    parseLineCore line l = .error ⟨l, line.length - 2, .checksumError⟩ ∧
      (¬ 1025 ≤ line.length →
        IHexVec.parseLines (line :: L) l acc = .err ⟨l, line.length - 2, .checksumError⟩ ∧
        IHexMap.parseLines (line :: L) l e m = .err ⟨l, line.length - 2, .checksumError⟩) ∧
      (ParseMsg.checksumError ≠ ParseMsg.badStart ∧
        ParseMsg.checksumError ≠ ParseMsg.notHexChar ∧
        ParseMsg.checksumError ≠ ParseMsg.mismatchedLength ∧
        ParseMsg.checksumError ≠ ParseMsg.eofHasData ∧
        ParseMsg.checksumError ≠ ParseMsg.wrongSizeExtAddr ∧
        ParseMsg.checksumError ≠ ParseMsg.unhandledType) := by
  have hcond : ¬(line.length < 10 ∨ line.getD 0 0 ≠ 58) := by
    push_neg
    exact ⟨by omega, by rw [hcolon]⟩
  have hcore : parseLineCore line l = .error ⟨l, line.length - 2, .checksumError⟩ := by
    rw [parseLineCore_decode_ok line l bs hcond hdec, if_pos hsum]
  refine ⟨hcore, fun hline => ⟨?_, ?_⟩, by decide, by decide, by decide, by decide,
    by decide, by decide⟩
  · exact parseLines_vec_err_step line L l acc _ hline hcore
  · exact parseLines_map_err_step line L l e m _ hline hcore

/-- Witness for C6 at the concrete line `":000000010F"` whose bytes sum to
16 mod 256. -/
theorem C6_checksum_enforcement_witness :
    parseLineCore [58, 48, 48, 48, 48, 48, 48, 48, 49, 48, 70] 1 =
        .error ⟨1, 9, ParseMsg.checksumError⟩ ∧
      (¬ 1025 ≤ ([58, 48, 48, 48, 48, 48, 48, 48, 49, 48, 70] : List Nat).length →
        IHexVec.parseLines [[58, 48, 48, 48, 48, 48, 48, 48, 49, 48, 70]] 1 [] =
          .err ⟨1, 9, ParseMsg.checksumError⟩ ∧
        IHexMap.parseLines [[58, 48, 48, 48, 48, 48, 48, 48, 49, 48, 70]] 1 0 [] =
          .err ⟨1, 9, ParseMsg.checksumError⟩) ∧
      (ParseMsg.checksumError ≠ ParseMsg.badStart ∧
        ParseMsg.checksumError ≠ ParseMsg.notHexChar ∧
        ParseMsg.checksumError ≠ ParseMsg.mismatchedLength ∧
        ParseMsg.checksumError ≠ ParseMsg.eofHasData ∧
        ParseMsg.checksumError ≠ ParseMsg.wrongSizeExtAddr ∧
        ParseMsg.checksumError ≠ ParseMsg.unhandledType) :=
  C6_checksum_enforcement [58, 48, 48, 48, 48, 48, 48, 48, 49, 48, 70] 1
    [0, 0, 0, 1, 15] [] [] 0 [] (by decide) (by decide) (by decide) (by decide)

/-! ## C7: the end-to-end serialization example -/

/-- Counterexample to C7: encoding the Image `{0x0000 ↦ [0x01, 0x02]}`
does not produce the spec's claimed line `:0200000001020C` (followed by
the EOF line) — the checksum byte `0C` does not balance the record. -/
theorem C7_counterexample :
    IHexMap.Generate [(0, [1, 2])] ≠
      [58, 48, 50, 48, 48, 48, 48, 48, 48, 48, 49, 48, 50, 48, 67, 13, 10,
       58, 48, 48, 48, 48, 48, 48, 48, 49, 70, 70, 13, 10] := by
  decide

/-- C7 (amended): encoding an Image containing exactly one Data record at
address `0x0000` with payload `[0x01, 0x02]` produces the data line
`:020000000102FB` (with `FB` as the two's-complement checksum byte)
terminated by CR LF, followed by the EOF line `:00000001FF` terminated by
CR LF. -/
theorem C7_end_to_end :
    IHexMap.Generate [(0, [1, 2])] =
      [58, 48, 50, 48, 48, 48, 48, 48, 48, 48, 49, 48, 50, 70, 66, 13, 10,
       58, 48, 48, 48, 48, 48, 48, 48, 49, 70, 70, 13, 10] := by
  decide

/-! ## C5: extended linear address handling -/

/-- Counterexample to C5: the spec's concrete input line
`:02000004ABCD00DF` is not accepted — its decoded bytes sum to `0x5D`
mod 256, so the map-revision decoder rejects the file with a checksum
error at line 1 (and nothing is stored at `0xABCD1234`). -/
theorem C5_counterexample :
    IHexMap.Parse
      [58, 48, 50, 48, 48, 48, 48, 48, 52, 65, 66, 67, 68, 48, 48, 68, 70, 10,
       58, 48, 49, 49, 50, 51, 52, 48, 48, 53, 54, 54, 51, 10,
       58, 48, 48, 48, 48, 48, 48, 48, 49, 70, 70, 10] =
      .err ⟨1, 15, ParseMsg.checksumError⟩ := by
  decide

/-- C5 (amended): during decode in the map revision the bank starts at
zero, an ExtendedLinearAddress record with payload `[b0, b1]` sets the
bank to `(b0 << 24) ||| (b1 << 16)`, and a subsequent Data record at
16-bit offset `a` is stored at `bank ||| a`; concretely, with the
correctly checksummed line `:02000004ABCD82` followed by a data record at
offset `0x1234`, the payload is stored at absolute address `0xABCD1234`. -/
theorem C5_extended_address (line : List Nat) (L : List (List Nat)) (l e : Nat)
    (m : IHexMap.Image) (r : HexRecord) (b0 b1 : Nat)
    (hline : ¬ 1025 ≤ line.length) (hr : parseLineCore line l = .ok r) :
    (r.type = 4 → r.size = 2 → r.data = [b0, b1] →
      IHexMap.parseLines (line :: L) l e m =
        IHexMap.parseLines L (l + 1) (b0 * 16777216 + b1 * 65536) m) ∧
    (r.type = 0 →
      IHexMap.parseLines (line :: L) l e m =
        IHexMap.parseLines L (l + 1) e (IHexMap.mapInsert m (e ||| r.address) r.data)) ∧
    (∀ f, IHexMap.Parse f = IHexMap.parseLines (fileLines f) 1 0 []) ∧
    IHexMap.Parse
      [58, 48, 50, 48, 48, 48, 48, 48, 52, 65, 66, 67, 68, 56, 50, 10,
       58, 48, 49, 49, 50, 51, 52, 48, 48, 53, 54, 54, 51, 10,
       58, 48, 48, 48, 48, 48, 48, 48, 49, 70, 70, 10] =
      .ok [(2882343476, [86])] := by
  refine ⟨?_, ?_, fun f => rfl, by decide⟩
  · intro ht hs hd
    rw [parseLines_map_ela_step line L l e m r hline hr ht hs, hd]
    rfl
  · intro ht
    exact parseLines_map_data_step line L l e m r hline hr ht

/-- Witness for C5's amended theorem at the concrete corrected
ExtendedLinearAddress line. -/
theorem C5_extended_address_witness :
    IHexMap.parseLines
        [[58, 48, 50, 48, 48, 48, 48, 48, 52, 65, 66, 67, 68, 56, 50]] 1 0 [] =
      IHexMap.parseLines [] 2 (171 * 16777216 + 205 * 65536) [] :=
  (C5_extended_address [58, 48, 50, 48, 48, 48, 48, 48, 52, 65, 66, 67, 68, 56, 50]
      [] 1 0 [] ⟨2, 0, 4, [171, 205], 130⟩ 171 205 (by decide) (by decide)).1
    (by decide) (by decide) (by decide)

/-! ## C9: duplicate absolute addresses in the map revision -/

/-- Counterexample to C9: decoding two Data records at the same absolute
address 0 (payload `[0xAA]`, then payload `[0xBB]`) stores the FIRST
payload — `std::map::insert` does not overwrite, so the later record's
payload does not replace the earlier one. -/
theorem C9_counterexample :
    IHexMap.Parse
      [58, 48, 49, 48, 48, 48, 48, 48, 48, 65, 65, 53, 53, 10,
       58, 48, 49, 48, 48, 48, 48, 48, 48, 66, 66, 52, 52, 10,
       58, 48, 48, 48, 48, 48, 48, 48, 49, 70, 70, 10] =
      .ok [(0, [170])] ∧
      ([(0, [170])] : IHexMap.Image) ≠ [(0, [187])] := by
  constructor
  · decide
  · decide

/-- C9 (amended): in the address-keyed (map) revision, when a decoded Data
record's absolute address is already present in the Image, the new record
is silently discarded — no error is raised and parsing continues — and
the FIRST-stored payload is kept, because `std::map::insert` does not
overwrite an existing key. -/
theorem C9_duplicate_kept_first (m : IHexMap.Image) (k : Nat) (v : List Nat)
    (line : List Nat) (L : List (List Nat)) (l e : Nat) (r : HexRecord)
    (hs : m.Pairwise (fun a b => a.1 < b.1)) (hmem : k ∈ m.map Prod.fst)
    (hline : ¬ 1025 ≤ line.length) (hr : parseLineCore line l = .ok r) (ht : r.type = 0)
    (hkey : e ||| r.address = k) :
    IHexMap.mapInsert m k v = m ∧
      IHexMap.parseLines (line :: L) l e m = IHexMap.parseLines L (l + 1) e m := by
  refine ⟨mapInsert_existing m k v hs hmem, ?_⟩
  rw [parseLines_map_data_step line L l e m r hline hr ht, hkey,
    mapInsert_existing m k r.data hs hmem]

/-- Witness for C9's amended theorem at the concrete duplicate line
`":01000000BB44"` against an Image already holding address 0. -/
theorem C9_duplicate_kept_first_witness :
    IHexMap.mapInsert [(0, [170])] 0 [187] = [(0, [170])] ∧
      IHexMap.parseLines
          [[58, 48, 49, 48, 48, 48, 48, 48, 48, 66, 66, 52, 52]] 2 0 [(0, [170])] =
        IHexMap.parseLines [] 3 0 [(0, [170])] :=
  C9_duplicate_kept_first [(0, [170])] 0 [187]
    [58, 48, 49, 48, 48, 48, 48, 48, 48, 66, 66, 52, 52] [] 2 0
    ⟨1, 0, 0, [187], 68⟩ (by decide) (by decide) (by decide) (by decide) (by decide)
    (by decide)

/-! ## C10: odd number of hex characters after the marker -/

theorem decodeHexChars_drop_odd_aux :
    ∀ (n : Nat) (cs : List Nat) (i : Nat), cs.length ≤ n →
      (∀ c ∈ cs, (hexVal c).isSome) → cs.length % 2 = 1 →
      decodeHexChars cs i none = decodeHexChars cs.dropLast i none := by
  intro n
  induction n with
  | zero =>
    intro cs i hle _ hodd
    have h0 : cs.length = 0 := by omega
    exact absurd hodd (by omega)
  | succ n ih =>
    intro cs i hle hhex hodd
    rcases cs with _ | ⟨c1, cs1⟩
    · simp at hodd
    rcases cs1 with _ | ⟨c2, t⟩
    · obtain ⟨v, hv⟩ := Option.isSome_iff_exists.mp (hhex c1 (by simp))
      show decodeHexChars [c1] i none = decodeHexChars [] i none
      simp only [decodeHexChars, hv]
    · have hlen : (c1 :: c2 :: t).length = t.length + 2 := by simp
      have ht : t.length % 2 = 1 := by omega
      have htne : t ≠ [] := by
        intro h
        rw [h] at ht
        simp at ht
      obtain ⟨v1, hv1⟩ := Option.isSome_iff_exists.mp (hhex c1 (by simp))
      obtain ⟨v2, hv2⟩ := Option.isSome_iff_exists.mp (hhex c2 (by simp))
      have hdl : (c1 :: c2 :: t).dropLast = c1 :: c2 :: t.dropLast := by
        obtain ⟨x, xs, hx⟩ := List.exists_cons_of_ne_nil htne
        subst hx
        rfl
      rw [hdl]
      simp only [decodeHexChars, hv1, hv2]
      rw [ih t (i + 1 + 1) (by omega)
        (fun c hc => hhex c (List.mem_cons_of_mem _ (List.mem_cons_of_mem _ hc))) ht]

/-- C10: a line with an odd number of hexadecimal characters after the
`':'` is accepted whenever the line formed by dropping the final unpaired
hex digit is accepted, with the same parse result — the trailing nibble is
silently ignored; in particular `":00000001FFF"` decodes as a plain
EndOfFile record in both revisions. -/
theorem C10_odd_hex_accepted (rest : List Nat) (l : Nat) (r : HexRecord)
    (hhex : ∀ c ∈ rest, (hexVal c).isSome) (hodd : rest.length % 2 = 1)
    (hok : parseLineCore (58 :: rest.dropLast) l = .ok r) :
    parseLineCore (58 :: rest) l = .ok r ∧
      parseLineCore [58, 48, 48, 48, 48, 48, 48, 48, 49, 70, 70, 70] 1 =
        .ok ⟨0, 0, 1, [], 255⟩ ∧
      IHexVec.Parse [58, 48, 48, 48, 48, 48, 48, 48, 49, 70, 70, 70, 10] =
        .ok [⟨0, 0, 1, [], 255⟩] ∧
      IHexMap.Parse [58, 48, 48, 48, 48, 48, 48, 48, 49, 70, 70, 70, 10] = .ok [] := by
  refine ⟨?_, by decide, by decide, by decide⟩
  have hdrop : decodeHexChars rest 1 none = decodeHexChars rest.dropLast 1 none :=
    decodeHexChars_drop_odd_aux rest.length rest 1 (Nat.le_refl _) hhex hodd
  unfold parseLineCore at hok
  by_cases h0 : (58 :: rest.dropLast : List Nat).length < 10 ∨
      (58 :: rest.dropLast : List Nat).getD 0 0 ≠ 58
  · rw [if_pos h0] at hok
    cases hok
  rw [if_neg h0] at hok
  cases hdec : decodeHexChars ((58 :: rest.dropLast : List Nat).drop 1) 1 none with
  | error e =>
    rw [hdec, caseExcept_error] at hok
    cases hok
  | ok bs =>
    rw [hdec, caseExcept_ok] at hok
    by_cases hs : (bs.foldl (· + ·) 0) % 256 ≠ 0
    · rw [if_pos hs] at hok
      cases hok
    rw [if_neg hs] at hok
    by_cases hc : bs.getD 0 0 + 5 ≠ bs.length
    · rw [if_pos hc] at hok
      cases hok
    rw [if_neg hc] at hok
    have hlen0 : ¬((58 :: rest.dropLast : List Nat).length < 10) := by
      intro hcontra
      exact h0 (Or.inl hcontra)
    have hlen1 : ¬((58 :: rest : List Nat).length < 10 ∨
        (58 :: rest : List Nat).getD 0 0 ≠ 58) := by
      push_neg
      refine ⟨?_, by simp⟩
      simp only [List.length_cons] at hlen0 ⊢
      have := List.length_dropLast rest
      omega
    have hdec2 : decodeHexChars ((58 :: rest : List Nat).drop 1) 1 none = .ok bs := by
      show decodeHexChars rest 1 none = .ok bs
      rw [hdrop]
      exact hdec
    rw [parseLineCore_decode_ok _ l bs hlen1 hdec2, if_neg hs, if_neg hc]
    exact hok

/-- Witness for C10 at the concrete line `":00000001FFF"`. -/
theorem C10_odd_hex_accepted_witness :
    parseLineCore [58, 48, 48, 48, 48, 48, 48, 48, 49, 70, 70, 70] 1 =
        .ok ⟨0, 0, 1, [], 255⟩ ∧
      IHexVec.Parse [58, 48, 48, 48, 48, 48, 48, 48, 49, 70, 70, 70, 10] =
        .ok [⟨0, 0, 1, [], 255⟩] ∧
      IHexMap.Parse [58, 48, 48, 48, 48, 48, 48, 48, 49, 70, 70, 70, 10] = .ok [] :=
  ⟨((C10_odd_hex_accepted [48, 48, 48, 48, 48, 48, 48, 49, 70, 70, 70] 1
      ⟨0, 0, 1, [], 255⟩ (by decide) (by decide) (by decide)).1 : _),
    (C10_odd_hex_accepted [48, 48, 48, 48, 48, 48, 48, 49, 70, 70, 70] 1
      ⟨0, 0, 1, [], 255⟩ (by decide) (by decide) (by decide)).2.2⟩

/-! ## C8: image equality -/

theorem recordEq_iff (a b : HexRecord) :
    IHexVec.recordEq a b = true ↔
      (a.size, a.address, a.type, a.checksum) = (b.size, b.address, b.type, b.checksum) := by
  unfold IHexVec.recordEq
  simp only [Bool.and_eq_true, beq_iff_eq, Prod.mk.injEq]
  tauto

theorem imageEq_vec_cons (x y : HexRecord) (xs ys : List HexRecord) :
    IHexVec.imageEq (x :: xs) (y :: ys) = true ↔
      (IHexVec.recordEq x y = true ∧ IHexVec.imageEq xs ys = true) := by
  unfold IHexVec.imageEq
  simp only [List.length_cons, List.zipWith_cons_cons, List.all_cons, Bool.and_eq_true,
    beq_iff_eq, id_eq]
  constructor
  · rintro ⟨h1, h2, h3⟩
    exact ⟨h2, by omega, h3⟩
  · rintro ⟨h1, h2, h3⟩
    exact ⟨by omega, h1, h3⟩

theorem imageEq_vec_iff :
    ∀ (a b : List HexRecord), IHexVec.imageEq a b = true ↔
      (a.length = b.length ∧ ∀ i : Nat,
        (a[i]?.map fun r => (r.size, r.address, r.type, r.checksum)) =
          (b[i]?.map fun r => (r.size, r.address, r.type, r.checksum))) := by
  intro a
  induction a with
  | nil =>
    intro b
    cases b with
    | nil => simp [IHexVec.imageEq]
    | cons y ys =>
      constructor
      · intro h
        simp [IHexVec.imageEq] at h
      · rintro ⟨h, _⟩
        simp at h
  | cons x xs ih =>
    intro b
    cases b with
    | nil =>
      constructor
      · intro h
        simp [IHexVec.imageEq] at h
      · rintro ⟨h, _⟩
        simp at h
    | cons y ys =>
      rw [imageEq_vec_cons]
      constructor
      · rintro ⟨hxy, hrest⟩
        obtain ⟨hlen, hall⟩ := (ih ys).mp hrest
        refine ⟨by simp [hlen], ?_⟩
        intro i
        cases i with
        | zero =>
          simp only [List.getElem?_cons_zero, Option.map_some']
          exact congrArg some ((recordEq_iff x y).mp hxy)
        | succ i =>
          simp only [List.getElem?_cons_succ]
          exact hall i
      · rintro ⟨hlen, hall⟩
        have h0 := hall 0
        simp only [List.getElem?_cons_zero, Option.map_some', Option.some.injEq] at h0
        refine ⟨(recordEq_iff x y).mpr h0, (ih ys).mpr ⟨by simpa using hlen, ?_⟩⟩
        intro i
        have := hall (i + 1)
        simpa only [List.getElem?_cons_succ] using this

theorem lookup_head (k : Nat) (v : List Nat) (rest : IHexMap.Image) :
    IHexMap.lookup ((k, v) :: rest) k = some v := by
  simp [IHexMap.lookup]

theorem lookup_none_of_all_gt (m : IHexMap.Image) (k : Nat)
    (h : ∀ kv ∈ m, k < kv.1) : IHexMap.lookup m k = none := by
  induction m with
  | nil => rfl
  | cons kv rest ih =>
    obtain ⟨k0, v0⟩ := kv
    have hk : k < k0 := h (k0, v0) (List.mem_cons_self _ _)
    unfold IHexMap.lookup
    rw [if_neg (by omega)]
    exact ih (fun kv hkv => h kv (List.mem_cons_of_mem _ hkv))

theorem lookup_some_mem (m : IHexMap.Image) (k : Nat) (v : List Nat)
    (h : IHexMap.lookup m k = some v) : ∃ kv ∈ m, kv.1 = k := by
  induction m with
  | nil => cases h
  | cons kv rest ih =>
    obtain ⟨k0, v0⟩ := kv
    unfold IHexMap.lookup at h
    by_cases hk : k = k0
    · exact ⟨(k0, v0), List.mem_cons_self _ _, hk.symm⟩
    · rw [if_neg hk] at h
      obtain ⟨kv, hmem, hfst⟩ := ih h
      exact ⟨kv, List.mem_cons_of_mem _ hmem, hfst⟩

theorem sorted_lookup_ext :
    ∀ (m1 m2 : IHexMap.Image), m1.Pairwise (fun x y => x.1 < y.1) →
      m2.Pairwise (fun x y => x.1 < y.1) →
      (∀ k, IHexMap.lookup m1 k = IHexMap.lookup m2 k) → m1 = m2 := by
  intro m1
  induction m1 with
  | nil =>
    intro m2 _ _ h
    cases m2 with
    | nil => rfl
    | cons kv rest =>
      obtain ⟨k2, v2⟩ := kv
      have h2 := h k2
      rw [lookup_head] at h2
      cases h2
  | cons kv1 t1 ih =>
    obtain ⟨k1, v1⟩ := kv1
    intro m2 hp1 hp2 h
    cases m2 with
    | nil =>
      have h1 := h k1
      rw [lookup_head] at h1
      cases h1
    | cons kv2 t2 =>
      obtain ⟨k2, v2⟩ := kv2
      rw [List.pairwise_cons] at hp1 hp2
      obtain ⟨hall1, hp1t⟩ := hp1
      obtain ⟨hall2, hp2t⟩ := hp2
      have hk12 : k1 = k2 := by
        by_contra hne
        have h1 := h k1
        rw [lookup_head] at h1
        unfold IHexMap.lookup at h1
        rw [if_neg hne] at h1
        obtain ⟨kva, hmema, hfsta⟩ := lookup_some_mem t2 k1 v1 h1.symm
        have hlta : k2 < k1 := by
          have := hall2 kva hmema
          omega
        have h2 := h k2
        rw [lookup_head] at h2
        unfold IHexMap.lookup at h2
        rw [if_neg (by omega)] at h2
        obtain ⟨kvb, hmemb, hfstb⟩ := lookup_some_mem t1 k2 v2 h2
        have hltb : k1 < k2 := by
          have := hall1 kvb hmemb
          omega
        omega
      subst hk12
      have hv12 : v1 = v2 := by
        have h1 := h k1
        rw [lookup_head, lookup_head] at h1
        cases h1
        rfl
      subst hv12
      have htail : ∀ k, IHexMap.lookup t1 k = IHexMap.lookup t2 k := by
        intro k
        by_cases hk : k = k1
        · subst hk
          rw [lookup_none_of_all_gt t1 k (fun kv hkv => hall1 kv hkv),
            lookup_none_of_all_gt t2 k (fun kv hkv => hall2 kv hkv)]
        · have hstep := h k
          unfold IHexMap.lookup at hstep
          rw [if_neg hk, if_neg hk] at hstep
          exact hstep
      rw [ih t2 hp1t hp2t htail]

theorem imageEq_map_iff (m1 m2 : IHexMap.Image)
    (h1 : m1.Pairwise (fun x y => x.1 < y.1)) (h2 : m2.Pairwise (fun x y => x.1 < y.1)) :
    IHexMap.imageEq m1 m2 = true ↔ ∀ k, IHexMap.lookup m1 k = IHexMap.lookup m2 k := by
  unfold IHexMap.imageEq
  rw [beq_iff_eq]
  constructor
  · intro h k
    rw [h]
  · intro h
    exact sorted_lookup_ext m1 m2 h1 h2 h

/-- Counterexample to C8: two single-record Images in the ordered-record
revision whose records differ only in their payload bytes compare EQUAL —
`HexRecord::operator==` never compares the payload. -/
theorem C8_counterexample :
    IHexVec.imageEq [⟨1, 0, 0, [1], 0⟩] [⟨1, 0, 0, [2], 0⟩] = true ∧
      (⟨1, 0, 0, [1], 0⟩ : HexRecord).data ≠ (⟨1, 0, 0, [2], 0⟩ : HexRecord).data := by
  constructor
  · decide
  · decide

/-- C8 (amended): in the ordered-record revision two Images compare equal
iff they have the same number of records and corresponding records agree
on length, address, type and checksum — payload bytes are NOT compared;
in the address-keyed revision two (sorted) Images compare equal iff they
store the same payload at every absolute address. -/
theorem C8_image_equality :
    (∀ a b : List HexRecord, IHexVec.imageEq a b = true ↔
      (a.length = b.length ∧ ∀ i : Nat,
        (a[i]?.map fun r => (r.size, r.address, r.type, r.checksum)) =
          (b[i]?.map fun r => (r.size, r.address, r.type, r.checksum)))) ∧
    (∀ m1 m2 : IHexMap.Image, m1.Pairwise (fun x y => x.1 < y.1) →
      m2.Pairwise (fun x y => x.1 < y.1) →
      (IHexMap.imageEq m1 m2 = true ↔ ∀ k, IHexMap.lookup m1 k = IHexMap.lookup m2 k)) :=
  ⟨imageEq_vec_iff, imageEq_map_iff⟩

/-- Witness for C8's amended theorem: equality of two concrete sorted
map Images is equivalent to pointwise lookup agreement, instantiated and
evaluated on both sides. -/
theorem C8_image_equality_witness :
    IHexMap.imageEq [(0, [1])] [(0, [1])] = true ∧
      IHexVec.imageEq [(⟨0, 0, 1, [], 255⟩ : HexRecord)] [⟨0, 0, 1, [], 255⟩] = true :=
  ⟨(C8_image_equality.2 [(0, [1])] [(0, [1])] (by decide) (by decide)).mpr
      (fun k => rfl),
    (C8_image_equality.1 [⟨0, 0, 1, [], 255⟩] [⟨0, 0, 1, [], 255⟩]).mpr
      ⟨rfl, fun i => rfl⟩⟩
